import Mathlib

/-!
# Verification of the weighted sequence allocator

Shallow embedding of `src/python/weighted_group_assigner.py` and
`src/python/weighted_data_distributor.py`.

Modelling conventions:

* A Python `dict` (insertion-ordered, unique keys) mapping the group keys to
  weights is modelled as a `List Nat` of the weights, in insertion order; the
  group identified by key number `i` is position `i`.  The returned mapping
  `{key: [items]}` is modelled as a `List (List α)` with one entry per group,
  in the same order.
* The spec restricts weights to non-negative integers, so weights are `Nat`
  and Python's float arithmetic `w * total / s` is modelled by exact rational
  arithmetic (exact for integer-valued floats below 2^53):
  `math.floor(w * total / s)` is Nat division `w * total / s`, and comparing
  fractional remainders `raw - floor` is comparing `w * total % s` (all
  remainders share the denominator `s`).
* Python's `sorted(range(len(keys)), key=lambda i: (-remainder[i], i))` is a
  stable sort under a key that is already a strict total order on indices, so
  the result is the unique sorted permutation; it is modelled with
  `List.insertionSort` under the total order `sortKeyLE`.
* Unbounded `while` loops are modelled with an explicit fuel parameter;
  `data.length + 1` units of fuel are provably sufficient whenever the Python
  loop terminates, and exhausted fuel (`PyResult.diverge`) models an infinite
  loop.  Separate lemmas show the underlying one-sweep step function makes no
  progress in the diverging cases, so `diverge` is faithful.
* A raised Python exception is modelled as `PyResult.exn` with a message tag.
-/

/-- Ordering on index positions used to model Python's stable
`sorted(..., key=lambda i: (-vals[i], i))`: position `i` comes before `j`
iff `vals[i] > vals[j]`, or they are equal and `i ≤ j`. -/
def sortKeyLE {β : Type} [LinearOrder β] (vals : List β) (d : β) (i j : Nat) : Prop :=
  vals.getD j d < vals.getD i d ∨ (vals.getD i d = vals.getD j d ∧ i ≤ j)

instance {β : Type} [LinearOrder β] (vals : List β) (d : β) :
    DecidableRel (sortKeyLE vals d) := fun i j => by
  unfold sortKeyLE; infer_instance

instance sortKeyLE_total {β : Type} [LinearOrder β] (vals : List β) (d : β) :
    IsTotal Nat (sortKeyLE vals d) := by
  constructor
  intro i j
  rcases lt_trichotomy (vals.getD i d) (vals.getD j d) with h | h | h
  · exact Or.inr (Or.inl h)
  · rcases Nat.le_total i j with hij | hij
    · exact Or.inl (Or.inr ⟨h, hij⟩)
    · exact Or.inr (Or.inr ⟨h.symm, hij⟩)
  · exact Or.inl (Or.inl h)

instance sortKeyLE_trans {β : Type} [LinearOrder β] (vals : List β) (d : β) :
    IsTrans Nat (sortKeyLE vals d) := by
  constructor
  intro a b c hab hbc
  rcases hab with hab | ⟨hab, hab2⟩
  · rcases hbc with hbc | ⟨hbc, _⟩
    · exact Or.inl (hbc.trans hab)
    · exact Or.inl (hbc ▸ hab)
  · rcases hbc with hbc | ⟨hbc, hbc2⟩
    · exact Or.inl (hab ▸ hbc)
    · exact Or.inr ⟨hab.trans hbc, hab2.trans hbc2⟩

/-! ## The largest remainder method

Embedding of `WeightedGroupAssigner._largest_remainder_method`
(`weighted_group_assigner.py` lines 30-51). -/

/-- `floored` of the source: `[math.floor(w * total / s) for w in values]`. -/
def lrFloors (total : Nat) (ws : List Nat) : List Nat :=
  ws.map fun w => w * total / ws.sum

/-- Numerators (over the common denominator `sum ws`) of the fractional
remainders `raw - floored` of the source. -/
def lrRems (total : Nat) (ws : List Nat) : List Nat :=
  ws.map fun w => w * total % ws.sum

/-- `indices = sorted(range(len(keys)), key=lambda i: (-remainder[i], i))`. -/
def lrOrder (total : Nat) (ws : List Nat) : List Nat :=
  List.insertionSort (sortKeyLE (lrRems total ws) 0) (List.range ws.length)

/-- `to_assign = total - assigned`. -/
def lrDeficit (total : Nat) (ws : List Nat) : Nat :=
  total - (lrFloors total ws).sum

/-- The indices receiving one extra unit: `indices[i]` for
`i in range(to_assign)`. -/
def lrWinners (total : Nat) (ws : List Nat) : List Nat :=
  (lrOrder total ws).take (lrDeficit total ws)

/-- `WeightedGroupAssigner._largest_remainder_method(total, weights)`:
if the weight sum or the total is zero, every group gets 0; otherwise each
group gets its floored share plus one if it is among the `to_assign` groups
with the largest fractional remainders (ties broken by position). -/
def largest_remainder_method (total : Nat) (ws : List Nat) : List Nat :=
  if ws.sum = 0 ∨ total = 0 then ws.map fun _ => 0
  else (List.range ws.length).map fun i =>
    (lrFloors total ws).getD i 0 + if i ∈ lrWinners total ws then 1 else 0

/-! ### Generic list helper lemmas -/

theorem getD_map_of_lt {β γ : Type} (f : β → γ) (l : List β) (i : Nat) (d : γ)
    (h : i < l.length) : (l.map f).getD i d = f (l.get ⟨i, h⟩) := by
  rw [List.getD_eq_getElem _ _ (by simpa using h), List.getElem_map]
  rfl

theorem list_eq_range_map_getD {β : Type} (l : List β) (d : β) :
    l = (List.range l.length).map fun i => l.getD i d := by
  apply List.ext_getElem
  · simp
  · intro n h1 h2
    rw [List.getElem_map, List.getElem_range]
    exact (List.getD_eq_getElem l d h1).symm

theorem sum_map_add_nat {κ : Type} (l : List κ) (f g : κ → Nat) :
    (l.map fun k => f k + g k).sum = (l.map f).sum + (l.map g).sum := by
  induction l with
  | nil => simp
  | cons x xs ih => simp [ih]; omega

/-- Bounding a sum of naturals by the count of its positive entries. -/
theorem sum_map_le_countPos_mul (f : Nat → Nat) (c : Nat) :
    ∀ ks : List Nat, (∀ k ∈ ks, f k ≤ c) →
      (ks.map f).sum ≤ (ks.filter fun k => decide (0 < f k)).length * c
  | [], _ => by simp
  | k :: ks, h => by
    have ih := sum_map_le_countPos_mul f c ks (fun x hx => h x (List.mem_cons_of_mem _ hx))
    by_cases hk : 0 < f k
    · simp only [List.map_cons, List.sum_cons, List.filter_cons]
      rw [if_pos (by simpa using hk)]
      have := h k (List.mem_cons_self _ _)
      simp only [List.length_cons]
      calc f k + (ks.map f).sum
          ≤ c + (ks.filter fun k => decide (0 < f k)).length * c := by
            exact Nat.add_le_add (h k (List.mem_cons_self _ _)) ih
        _ = ((ks.filter fun k => decide (0 < f k)).length + 1) * c := by ring
    · have hk0 : f k = 0 := by omega
      simp only [List.map_cons, List.sum_cons, List.filter_cons, hk0]
      rw [if_neg (by simp)]
      simpa [hk0] using ih

/-- Counting a nodup sublist by summing indicators over a nodup superlist. -/
theorem sum_indicator_eq_length :
    ∀ (ks : List Nat) {l : List Nat}, ks.Nodup → l.Nodup → (∀ x ∈ l, x ∈ ks) →
      (ks.map fun k => if k ∈ l then 1 else 0).sum = l.length
  | [], l, _, hl, hsub => by
    cases l with
    | nil => simp
    | cons y ys => exact absurd (hsub y (List.mem_cons_self _ _)) (by simp)
  | k :: ks, l, hks, hl, hsub => by
    have hnd := hks
    rw [List.nodup_cons] at hnd
    by_cases hk : k ∈ l
    · have hrec := sum_indicator_eq_length ks hnd.2 (List.Nodup.erase k hl)
        (fun x hx => by
          have hxl : x ∈ l := List.mem_of_mem_erase hx
          have hxk : x ≠ k := ((List.Nodup.mem_erase_iff hl).mp hx).1
          rcases List.mem_cons.mp (hsub x hxl) with h | h
          · exact absurd h hxk
          · exact h)
      have hmem : ∀ x, (x ∈ l.erase k) ↔ (x ∈ l ∧ x ≠ k) := by
        intro x
        rw [List.Nodup.mem_erase_iff hl]
        exact ⟨fun h => ⟨h.2, h.1⟩, fun h => ⟨h.2, h.1⟩⟩
      have hcongr : (ks.map fun x => if x ∈ l then 1 else 0)
          = ks.map fun x => if x ∈ l.erase k then 1 else 0 := by
        apply List.map_congr_left
        intro x hx
        have hxk : x ≠ k := fun h => hnd.1 (h ▸ hx)
        by_cases hxl : x ∈ l
        · rw [if_pos hxl, if_pos ((hmem x).mpr ⟨hxl, hxk⟩)]
        · rw [if_neg hxl, if_neg (fun h => hxl (List.mem_of_mem_erase h))]
      simp only [List.map_cons, List.sum_cons, if_pos hk]
      rw [hcongr, hrec, List.length_erase_of_mem hk]
      have : 0 < l.length := List.length_pos_of_mem hk
      omega
    · have hrec := sum_indicator_eq_length ks hnd.2 hl
        (fun x hx => by
          rcases List.mem_cons.mp (hsub x hx) with h | h
          · exact absurd (h ▸ hx) hk
          · exact h)
      simpa [if_neg hk] using hrec

/-- Membership of the `take` of a sorted list is closed downward under the
sorting relation: if `a` made the cut and `b` sorts no later than `a`
(`¬ r a b` with `r` total), then `b` made the cut too. -/
theorem mem_take_of_sorted_rel {r : Nat → Nat → Prop} :
    ∀ {L : List Nat} {d a b : Nat}, List.Sorted r L → a ∈ L.take d → b ∈ L →
      ¬ r a b → b ∈ L.take d
  | [], _, _, _, _, ha, _, _ => by simp at ha
  | x :: L, d, a, b, hs, ha, hb, hr => by
    cases d with
    | zero => simp at ha
    | succ d =>
      rw [List.take_succ_cons] at ha ⊢
      rcases List.mem_cons.mp hb with rfl | hbL
      · exact List.mem_cons_self _ _
      · rcases List.mem_cons.mp ha with rfl | haL
        · exact absurd ((List.sorted_cons.mp hs).1 b hbL) hr
        · exact List.mem_cons_of_mem _
            (mem_take_of_sorted_rel (List.sorted_cons.mp hs).2 haL hbL hr)

/-! ### Structural facts about the largest remainder method -/

theorem lrFloors_length (total : Nat) (ws : List Nat) :
    (lrFloors total ws).length = ws.length := by
  simp [lrFloors]

theorem lrRems_length (total : Nat) (ws : List Nat) :
    (lrRems total ws).length = ws.length := by
  simp [lrRems]

theorem lrRems_getD_lt (total : Nat) (ws : List Nat) (hs : 0 < ws.sum) (i : Nat) :
    (lrRems total ws).getD i 0 < ws.sum := by
  by_cases h : i < ws.length
  · rw [lrRems, getD_map_of_lt _ _ _ _ h]
    exact Nat.mod_lt _ hs
  · rw [List.getD_eq_default]
    · exact hs
    · rw [lrRems_length]; omega

/-- The exact arithmetic identity behind the method:
`total * sum = sum * (sum of floors) + (sum of remainder numerators)`. -/
theorem lr_key_identity (total : Nat) (ws : List Nat) :
    total * ws.sum
      = ws.sum * (lrFloors total ws).sum + (lrRems total ws).sum := by
  have h1 : (ws.map fun w => w * total).sum = ws.sum * total := by
    simpa using List.sum_map_mul_right ws (fun w => w) total
  have h2 : (ws.map fun w => w * total)
      = ws.map fun w => ws.sum * (w * total / ws.sum) + w * total % ws.sum := by
    apply List.map_congr_left
    intro w _
    exact (Nat.div_add_mod (w * total) ws.sum).symm
  have h3 : (ws.map fun w => ws.sum * (w * total / ws.sum) + w * total % ws.sum).sum
      = (ws.map fun w => ws.sum * (w * total / ws.sum)).sum + (lrRems total ws).sum :=
    sum_map_add_nat ws _ _
  have h4 : (ws.map fun w => ws.sum * (w * total / ws.sum)).sum
      = ws.sum * (lrFloors total ws).sum := by
    simpa [lrFloors] using List.sum_map_mul_left ws (fun w => w * total / ws.sum) ws.sum
  rw [mul_comm total ws.sum, ← h1, h2, h3, h4]

theorem lrFloors_sum_le (total : Nat) (ws : List Nat) (hs : 0 < ws.sum) :
    (lrFloors total ws).sum ≤ total := by
  have hkey : ws.sum * total
      = ws.sum * (lrFloors total ws).sum + (lrRems total ws).sum := by
    rw [mul_comm]; exact lr_key_identity total ws
  have h1 : ws.sum * (lrFloors total ws).sum ≤ ws.sum * total := by
    rw [hkey]; exact Nat.le_add_right _ _
  exact Nat.le_of_mul_le_mul_left h1 hs

theorem lrDeficit_mul (total : Nat) (ws : List Nat) :
    ws.sum * lrDeficit total ws = (lrRems total ws).sum := by
  have hkey : ws.sum * total
      = ws.sum * (lrFloors total ws).sum + (lrRems total ws).sum := by
    rw [mul_comm]; exact lr_key_identity total ws
  rw [lrDeficit, Nat.mul_sub, hkey, Nat.add_sub_cancel_left]

theorem length_pos_of_sum_pos (ws : List Nat) (hs : 0 < ws.sum) : 0 < ws.length := by
  cases ws with
  | nil => simp at hs
  | cons x xs => simp

theorem lrRems_sum_le (total : Nat) (ws : List Nat) (hs : 0 < ws.sum) :
    (lrRems total ws).sum ≤ ws.length * (ws.sum - 1) := by
  have h := List.sum_le_card_nsmul (lrRems total ws) (ws.sum - 1) ?_
  · rw [lrRems_length, smul_eq_mul] at h
    exact h
  · intro x hx
    rcases List.mem_map.mp hx with ⟨w, _, rfl⟩
    have := Nat.mod_lt (w * total) hs
    omega

theorem lrDeficit_lt_length (total : Nat) (ws : List Nat) (hs : 0 < ws.sum) :
    lrDeficit total ws < ws.length := by
  have h1 := lrDeficit_mul total ws
  have h2 := lrRems_sum_le total ws hs
  have hn := length_pos_of_sum_pos ws hs
  have h4 : ws.length * (ws.sum - 1) + ws.length = ws.length * ws.sum := by
    rw [← Nat.mul_succ]
    congr 1
    omega
  have h5 : ws.sum * lrDeficit total ws < ws.length * ws.sum := by linarith
  rw [mul_comm ws.length ws.sum] at h5
  exact Nat.lt_of_mul_lt_mul_left h5

theorem lrOrder_perm (total : Nat) (ws : List Nat) :
    (lrOrder total ws).Perm (List.range ws.length) :=
  List.perm_insertionSort _ _

theorem lrOrder_sorted (total : Nat) (ws : List Nat) :
    List.Sorted (sortKeyLE (lrRems total ws) 0) (lrOrder total ws) :=
  List.sorted_insertionSort _ _

theorem lrOrder_nodup (total : Nat) (ws : List Nat) : (lrOrder total ws).Nodup :=
  ((lrOrder_perm total ws).nodup_iff).mpr (List.nodup_range _)

theorem mem_lrOrder (total : Nat) (ws : List Nat) (i : Nat) :
    i ∈ lrOrder total ws ↔ i < ws.length := by
  rw [(lrOrder_perm total ws).mem_iff, List.mem_range]

theorem lrWinners_nodup (total : Nat) (ws : List Nat) : (lrWinners total ws).Nodup :=
  List.Nodup.sublist (List.take_sublist _ _) (lrOrder_nodup total ws)

theorem lrWinners_lt (total : Nat) (ws : List Nat) (i : Nat)
    (h : i ∈ lrWinners total ws) : i < ws.length :=
  (mem_lrOrder total ws i).mp (List.mem_of_mem_take h)

theorem lrWinners_length (total : Nat) (ws : List Nat) (hs : 0 < ws.sum) :
    (lrWinners total ws).length = lrDeficit total ws := by
  rw [lrWinners, List.length_take, (lrOrder_perm total ws).length_eq,
    List.length_range]
  have := lrDeficit_lt_length total ws hs
  omega

/-- Every index that receives an extra unit under the largest remainder
method has a strictly positive fractional remainder. -/
theorem lrWinners_rem_pos (total : Nat) (ws : List Nat) (hs : 0 < ws.sum)
    {i : Nat} (hi : i ∈ lrWinners total ws) :
    0 < (lrRems total ws).getD i 0 := by
  by_contra hpos
  have hrem : (lrRems total ws).getD i 0 = 0 := by omega
  have hd0 : 0 < lrDeficit total ws := by
    by_contra h
    have h0 : lrDeficit total ws = 0 := by omega
    simp [lrWinners, h0] at hi
  have hposwin : ∀ p ∈ (List.range ws.length).filter
      (fun k => decide (0 < (lrRems total ws).getD k 0)), p ∈ lrWinners total ws := by
    intro p hp
    have hpn : p < ws.length := List.mem_range.mp (List.mem_of_mem_filter hp)
    have hppos : 0 < (lrRems total ws).getD p 0 := by
      simpa using List.of_mem_filter hp
    apply mem_take_of_sorted_rel (lrOrder_sorted total ws) hi
      ((mem_lrOrder total ws p).mpr hpn)
    intro hr
    rcases hr with hlt | ⟨heq, _⟩
    · rw [hrem] at hlt; omega
    · rw [hrem] at heq; omega
  set pos := (List.range ws.length).filter
    (fun k => decide (0 < (lrRems total ws).getD k 0)) with hposdef
  have hipos : i ∉ pos := by
    intro h
    have h2 := List.of_mem_filter h
    rw [decide_eq_true_eq] at h2
    omega
  have hndpos : pos.Nodup := (List.nodup_range ws.length).filter _
  have hcard : pos.length + 1 ≤ (lrWinners total ws).length := by
    have hsub2 : insert i pos.toFinset ⊆ (lrWinners total ws).toFinset := by
      intro x hx
      rcases Finset.mem_insert.mp hx with rfl | hx
      · exact List.mem_toFinset.mpr hi
      · exact List.mem_toFinset.mpr (hposwin x (List.mem_toFinset.mp hx))
    have h1 : (insert i pos.toFinset).card = pos.length + 1 := by
      rw [Finset.card_insert_of_not_mem (fun h => hipos (List.mem_toFinset.mp h)),
        List.toFinset_card_of_nodup hndpos]
    calc pos.length + 1 = (insert i pos.toFinset).card := h1.symm
      _ ≤ (lrWinners total ws).toFinset.card := Finset.card_le_card hsub2
      _ ≤ (lrWinners total ws).length := List.toFinset_card_le _
  have hwl : (lrWinners total ws).length = lrDeficit total ws :=
    lrWinners_length total ws hs
  -- the deficit is strictly smaller than the number of positive remainders
  have hsumpos : (lrRems total ws).sum
      = ((List.range ws.length).map fun k => (lrRems total ws).getD k 0).sum := by
    have h := list_eq_range_map_getD (lrRems total ws) 0
    rw [lrRems_length] at h
    exact congrArg List.sum h
  have hbound : ((List.range ws.length).map fun k => (lrRems total ws).getD k 0).sum
      ≤ pos.length * (ws.sum - 1) := by
    exact sum_map_le_countPos_mul _ _ _
      (fun k _ => by have := lrRems_getD_lt total ws hs k; omega)
  have hR : ws.sum * lrDeficit total ws = (lrRems total ws).sum :=
    lrDeficit_mul total ws
  have hPpos : 0 < pos.length := by
    by_contra hP
    have hP0 : pos.length = 0 := by omega
    rw [hP0] at hbound
    have : 0 < ws.sum * lrDeficit total ws :=
      Nat.mul_pos hs hd0
    omega
  have hmulP : pos.length * (ws.sum - 1) + pos.length = pos.length * ws.sum := by
    rw [← Nat.mul_succ]
    congr 1
    omega
  have h5 : ws.sum * lrDeficit total ws < pos.length * ws.sum := by linarith
  rw [mul_comm pos.length ws.sum] at h5
  have hdp := Nat.lt_of_mul_lt_mul_left h5
  omega

/-! ### The quota lemmas -/

theorem lrm_length (total : Nat) (ws : List Nat) :
    (largest_remainder_method total ws).length = ws.length := by
  unfold largest_remainder_method
  split <;> simp

theorem lrm_getD (total : Nat) (ws : List Nat) (hs : ¬ (ws.sum = 0 ∨ total = 0))
    {i : Nat} (hi : i < ws.length) :
    (largest_remainder_method total ws).getD i 0
      = (lrFloors total ws).getD i 0
        + if i ∈ lrWinners total ws then 1 else 0 := by
  unfold largest_remainder_method
  rw [if_neg hs, getD_map_of_lt _ _ _ _ (by simpa using hi)]
  congr 1 <;> rw [List.get_eq_getElem, List.getElem_range]

theorem lrm_zero (total : Nat) (ws : List Nat) (h : ws.sum = 0 ∨ total = 0) :
    largest_remainder_method total ws = ws.map fun _ => 0 := by
  unfold largest_remainder_method
  rw [if_pos h]

/-- Quota conservation in the interesting case: for a weight list with a
positive sum, the quotas sum to the total. -/
theorem lrm_sum (total : Nat) (ws : List Nat) (hs : 0 < ws.sum) :
    (largest_remainder_method total ws).sum = total := by
  by_cases ht : total = 0
  · rw [lrm_zero total ws (Or.inr ht), ht]
    simp
  · unfold largest_remainder_method
    rw [if_neg (by omega)]
    rw [sum_map_add_nat]
    have h1 : ((List.range ws.length).map fun i => (lrFloors total ws).getD i 0).sum
        = (lrFloors total ws).sum := by
      have h := list_eq_range_map_getD (lrFloors total ws) 0
      rw [lrFloors_length] at h
      exact (congrArg List.sum h).symm
    have h2 : ((List.range ws.length).map
        fun i => if i ∈ lrWinners total ws then 1 else 0).sum
        = (lrWinners total ws).length := by
      exact sum_indicator_eq_length _ (List.nodup_range _) (lrWinners_nodup total ws)
        (fun x hx => List.mem_range.mpr (lrWinners_lt total ws x hx))
    rw [h1, h2, lrWinners_length total ws hs]
    have := lrFloors_sum_le total ws hs
    unfold lrDeficit
    omega

theorem lrFloors_getD (total : Nat) (ws : List Nat) {i : Nat} (hi : i < ws.length) :
    (lrFloors total ws).getD i 0 = ws.getD i 0 * total / ws.sum := by
  rw [lrFloors, getD_map_of_lt _ _ _ _ hi, List.getD_eq_getElem ws 0 hi,
    List.get_eq_getElem]

theorem lrRems_getD (total : Nat) (ws : List Nat) {i : Nat} (hi : i < ws.length) :
    (lrRems total ws).getD i 0 = ws.getD i 0 * total % ws.sum := by
  rw [lrRems, getD_map_of_lt _ _ _ _ hi, List.getD_eq_getElem ws 0 hi,
    List.get_eq_getElem]

/-- A group with weight 0 always receives quota 0. -/
theorem lrm_zero_weight (total : Nat) (ws : List Nat) {i : Nat}
    (hi : i < ws.length) (hw : ws.getD i 0 = 0) :
    (largest_remainder_method total ws).getD i 0 = 0 := by
  by_cases h : ws.sum = 0 ∨ total = 0
  · rw [lrm_zero total ws h, getD_map_of_lt _ _ _ _ hi]
  · rw [lrm_getD total ws h hi, lrFloors_getD total ws hi, hw]
    have hs : 0 < ws.sum := by omega
    have hnw : i ∉ lrWinners total ws := by
      intro hwin
      have := lrWinners_rem_pos total ws hs hwin
      rw [lrRems_getD total ws hi, hw] at this
      simp at this
    rw [if_neg hnw]
    simp

/-- The proportionality bound for the largest remainder method: each quota is
within strictly less than one unit of the exact rational share. -/
theorem lrm_proportionality (total : Nat) (ws : List Nat) (hs : 0 < ws.sum)
    {i : Nat} (hi : i < ws.length) :
    |((largest_remainder_method total ws).getD i 0 : ℚ)
      - (ws.getD i 0 * total : ℚ) / (ws.sum : ℚ)| < 1 := by
  have hsq : (0 : ℚ) < (ws.sum : ℚ) := by exact_mod_cast hs
  have hsq0 : (ws.sum : ℚ) ≠ 0 := ne_of_gt hsq
  by_cases ht : total = 0
  · rw [lrm_zero total ws (Or.inr ht), ht, getD_map_of_lt _ _ _ _ hi]
    push_cast
    simp
  · have hmod : ws.sum * (ws.getD i 0 * total / ws.sum)
        + ws.getD i 0 * total % ws.sum = ws.getD i 0 * total :=
      Nat.div_add_mod _ _
    have hrlt : ws.getD i 0 * total % ws.sum < ws.sum := Nat.mod_lt _ hs
    have hx : (ws.getD i 0 * total : ℚ) / (ws.sum : ℚ)
        = ((ws.getD i 0 * total / ws.sum : Nat) : ℚ)
          + ((ws.getD i 0 * total % ws.sum : Nat) : ℚ) / (ws.sum : ℚ) := by
      have hcast : (ws.getD i 0 * total : ℚ)
          = (ws.sum : ℚ) * ((ws.getD i 0 * total / ws.sum : Nat) : ℚ)
            + ((ws.getD i 0 * total % ws.sum : Nat) : ℚ) := by
        exact_mod_cast hmod.symm
      rw [hcast, add_div, mul_div_cancel_left₀ _ hsq0]
    have h0 : (0 : ℚ) ≤ ((ws.getD i 0 * total % ws.sum : Nat) : ℚ) / (ws.sum : ℚ) :=
      div_nonneg (Nat.cast_nonneg _) (le_of_lt hsq)
    have h1 : ((ws.getD i 0 * total % ws.sum : Nat) : ℚ) / (ws.sum : ℚ) < 1 := by
      rw [div_lt_one hsq]
      exact_mod_cast hrlt
    rw [lrm_getD total ws (by omega) hi, lrFloors_getD total ws hi, hx]
    by_cases hw : i ∈ lrWinners total ws
    · have hrpos : 0 < ws.getD i 0 * total % ws.sum := by
        have := lrWinners_rem_pos total ws hs hw
        rwa [lrRems_getD total ws hi] at this
      have h2 : (0 : ℚ) < ((ws.getD i 0 * total % ws.sum : Nat) : ℚ) / (ws.sum : ℚ) := by
        apply div_pos _ hsq
        exact_mod_cast hrpos
      rw [if_pos hw, Nat.cast_add, Nat.cast_one]
      have heq : ((ws.getD i 0 * total / ws.sum : Nat) : ℚ) + 1
          - (((ws.getD i 0 * total / ws.sum : Nat) : ℚ)
            + ((ws.getD i 0 * total % ws.sum : Nat) : ℚ) / (ws.sum : ℚ))
          = 1 - ((ws.getD i 0 * total % ws.sum : Nat) : ℚ) / (ws.sum : ℚ) := by
        ring
      rw [heq, abs_lt]
      constructor <;> linarith
    · rw [if_neg hw, Nat.add_zero]
      have heq : ((ws.getD i 0 * total / ws.sum : Nat) : ℚ)
          - (((ws.getD i 0 * total / ws.sum : Nat) : ℚ)
            + ((ws.getD i 0 * total % ws.sum : Nat) : ℚ) / (ws.sum : ℚ))
          = -(((ws.getD i 0 * total % ws.sum : Nat) : ℚ) / (ws.sum : ℚ)) := by
        ring
      rw [heq, abs_lt]
      constructor <;> linarith

/-- Claim C1, counterexample: with the all-zero weight map `[0]` and
`total = 1` the quotas sum to `0`, not to the total `1`, so quota
conservation does not hold for every weight map. -/
theorem quota_conservation_cex : ¬ (largest_remainder_method 1 [0]).sum = 1 := by
  decide

/-- Claim C1, amended: when the weight sum is positive the quotas computed by
the largest remainder method sum exactly to the total; when the total is 0 or
the weight sum is 0, every group gets quota 0 (so in the latter case the sum
is 0, not the total). -/
theorem quota_conservation_amended (total : Nat) (ws : List Nat) :
    (0 < ws.sum → (largest_remainder_method total ws).sum = total)
    ∧ ((ws.sum = 0 ∨ total = 0) →
        largest_remainder_method total ws = ws.map fun _ => 0) :=
  ⟨fun hs => lrm_sum total ws hs, fun h => lrm_zero total ws h⟩

theorem quota_conservation_amended_witness :
    (largest_remainder_method 14 [5, 3, 1]).sum = 14
    ∧ largest_remainder_method 0 [5, 3, 1] = [5, 3, 1].map fun _ => 0 :=
  ⟨(quota_conservation_amended 14 [5, 3, 1]).1 (by decide),
   (quota_conservation_amended 0 [5, 3, 1]).2 (Or.inr rfl)⟩

/-- Claim C4: for every weight map with positive total weight, every total and
every group index, the quota differs from the exact proportional share
`weight * total / total_weight` by strictly less than one. -/
theorem proportionality_bound (total : Nat) (ws : List Nat) (hs : 0 < ws.sum)
    {i : Nat} (hi : i < ws.length) :
    |((largest_remainder_method total ws).getD i 0 : ℚ)
      - (ws.getD i 0 * total : ℚ) / (ws.sum : ℚ)| < 1 :=
  lrm_proportionality total ws hs hi

theorem proportionality_bound_witness :
    0 < ([5, 3, 1] : List Nat).sum ∧ 0 < ([5, 3, 1] : List Nat).length
    ∧ |((largest_remainder_method 14 [5, 3, 1]).getD 0 0 : ℚ)
        - (([5, 3, 1] : List Nat).getD 0 0 * 14 : ℚ) / ((([5, 3, 1] : List Nat).sum : Nat) : ℚ)| < 1 :=
  ⟨by decide, by decide, proportionality_bound 14 [5, 3, 1] (by decide) (by decide)⟩

/-- Claim C5: ties in the fractional remainder are broken positionally: if two
positions have equal remainders and the later one receives an extra unit then
so does the earlier one; concretely, weights `{A:1, B:1}` with `total = 3`
yield quotas `{A:2, B:1}`. -/
theorem tie_break_positional :
    (∀ (total : Nat) (ws : List Nat) (i j : Nat), i < j → j < ws.length →
      (lrRems total ws).getD i 0 = (lrRems total ws).getD j 0 →
      j ∈ lrWinners total ws → i ∈ lrWinners total ws)
    ∧ largest_remainder_method 3 [1, 1] = [2, 1] := by
  constructor
  · intro total ws i j hij hj heq hjw
    apply mem_take_of_sorted_rel (lrOrder_sorted total ws) hjw
      ((mem_lrOrder total ws i).mpr (by omega))
    intro hr
    rcases hr with hlt | ⟨heq2, hle⟩
    · rw [heq] at hlt
      exact absurd hlt (lt_irrefl _)
    · omega
  · decide

theorem tie_break_positional_witness :
    (0 : Nat) < 1 ∧ 1 < ([1, 1, 1] : List Nat).length
    ∧ (lrRems 5 [1, 1, 1]).getD 0 0 = (lrRems 5 [1, 1, 1]).getD 1 0
    ∧ 1 ∈ lrWinners 5 [1, 1, 1] ∧ 0 ∈ lrWinners 5 [1, 1, 1] :=
  ⟨by decide, by decide, by decide, by decide,
    tie_break_positional.1 5 [1, 1, 1] 0 1 (by decide) (by decide) (by decide)
      (by decide)⟩

/-! ## The assignment policies

Embeddings of the `WeightedGroupAssigner` methods.  Group keys are the
positions `0, 1, ...` of the weight list, matching the iteration order of the
Python dict. -/

/-- Outcome of a call into the Python code: a returned mapping, a raised
exception (with a tag naming the Python exception), or divergence (an
infinite loop, witnessed by fuel exhaustion of a provably stuck loop). -/
inductive PyResult (α : Type) where
  | ok : List (List α) → PyResult α
  | exn : String → PyResult α
  | diverge : PyResult α
deriving DecidableEq

/-- The loop of `_assign_chunk`: `result[key] = data[idx:idx+c]; idx += c`
over the per-group counts. -/
def assign_chunk_go {α : Type} (data : List α) : Nat → List Nat → List (List α)
  | _, [] => []
  | idx, c :: cs => ((data.drop idx).take c) :: assign_chunk_go data (idx + c) cs

/-- `WeightedGroupAssigner._assign_chunk` (lines 60-74). -/
def assign_chunk {α : Type} (ws : List Nat) (data : List α) : List (List α) :=
  assign_chunk_go data 0 (largest_remainder_method data.length ws)

/-- Mutable state of `_assign_block_interleaved`: the accumulated per-group
result lists, the per-group assigned counts `total_counts`, and `data_idx`. -/
structure BIState (α : Type) where
  res : List (List α)
  tc : List Nat
  idx : Nat
deriving DecidableEq

/-- One iteration of the inner `for k in keys` body of
`_assign_block_interleaved`: take `min(block_size, need)` items if positive
and data remains. -/
def biVisit {α : Type} (bs : Nat) (data : List α) (counts : List Nat)
    (st : BIState α) (k : Nat) : BIState α :=
  if 0 < min bs (counts.getD k 0 - st.tc.getD k 0) ∧ st.idx < data.length then
    { res := st.res.set k (st.res.getD k []
        ++ (data.drop st.idx).take (min bs (counts.getD k 0 - st.tc.getD k 0)))
      tc := st.tc.set k (st.tc.getD k 0 + min bs (counts.getD k 0 - st.tc.getD k 0))
      idx := st.idx + min bs (counts.getD k 0 - st.tc.getD k 0) }
  else st

/-- The inner `for k in keys` loop of `_assign_block_interleaved`. -/
def biSweep {α : Type} (bs : Nat) (data : List α) (counts : List Nat) :
    List Nat → BIState α → BIState α
  | [], st => st
  | k :: ks, st => biSweep bs data counts ks (biVisit bs data counts st k)

/-- The outer `while data_idx < total` loop of `_assign_block_interleaved`,
with explicit fuel; `none` models non-termination. -/
def biLoop {α : Type} (bs : Nat) (data : List α) (counts : List Nat) :
    Nat → BIState α → Option (BIState α)
  | 0, st => if st.idx < data.length then none else some st
  | fuel + 1, st =>
      if st.idx < data.length then
        biLoop bs data counts fuel (biSweep bs data counts (List.range counts.length) st)
      else some st

/-- The initial state: `result = {k: []}`, `total_counts = {k: 0}`,
`data_idx = 0`. -/
def biInit {α : Type} (ws : List Nat) : BIState α :=
  ⟨ws.map fun _ => [], ws.map fun _ => 0, 0⟩

/-- `WeightedGroupAssigner._assign_block_interleaved` (lines 76-98). -/
def assign_block_interleaved {α : Type} (ws : List Nat) (data : List α)
    (bs : Nat) : PyResult α :=
  let counts := largest_remainder_method data.length ws
  match biLoop bs data counts (data.length + 1) (biInit ws) with
  | some st => .ok st.res
  | none => .diverge

/-- `WeightedGroupAssigner._gcd_list`: `functools.reduce(math.gcd, numbers)`.
The empty case cannot arise from the source (the weights dict is non-empty);
it is mapped to 0, which feeds the same division-by-zero error path as an
all-zero weight list. -/
def gcd_list : List Nat → Nat
  | [] => 0
  | x :: xs => xs.foldl Nat.gcd x

/-- Mutable state of `_assign_gcd_interleaved`: the accumulated result lists,
the per-group `distributed` counts, and `data_idx`. -/
structure GIState (α : Type) where
  res : List (List α)
  dist : List Nat
  idx : Nat
deriving DecidableEq

/-- The inner `for _ in range(round_counts[k])` loop of
`_assign_gcd_interleaved`: append single items while data remains and the
group is below its final count, tracking the `can_distribute` flag. -/
def giEmit {α : Type} (data : List α) (finals : List Nat) (k : Nat) :
    Nat → GIState α × Bool → GIState α × Bool
  | 0, sf => sf
  | m + 1, (st, flag) =>
      if st.idx < data.length ∧ st.dist.getD k 0 < finals.getD k 0 then
        giEmit data finals k m
          ({ res := st.res.set k (st.res.getD k [] ++ (data.drop st.idx).take 1)
             dist := st.dist.set k (st.dist.getD k 0 + 1)
             idx := st.idx + 1 }, true)
      else giEmit data finals k m (st, flag)

/-- The `for k in keys` loop inside the `while True` of
`_assign_gcd_interleaved`: a group participates in the round only if a full
pattern emission fits its remaining final count. -/
def giSweep {α : Type} (data : List α) (rcs finals : List Nat) :
    List Nat → GIState α × Bool → GIState α × Bool
  | [], sf => sf
  | k :: ks, (st, flag) =>
      if st.dist.getD k 0 + rcs.getD k 0 ≤ finals.getD k 0 then
        giSweep data rcs finals ks (giEmit data finals k (rcs.getD k 0) (st, flag))
      else giSweep data rcs finals ks (st, flag)

/-- The `while True: ... if not can_distribute: break` loop of
`_assign_gcd_interleaved`, with explicit fuel. -/
def giLoop {α : Type} (data : List α) (rcs finals : List Nat) (n : Nat) :
    Nat → GIState α → Option (GIState α)
  | 0, _ => none
  | fuel + 1, st =>
      match giSweep data rcs finals (List.range n) (st, false) with
      | (st2, true) => giLoop data rcs finals n fuel st2
      | (st2, false) => some st2

/-- The trailing `for k in keys: ... result[k].extend(left_data[idx:idx+cnt])`
loop of `_assign_gcd_interleaved` (also reused by the amended spec statement
as the contiguous deficit fill). -/
def giFill {α : Type} (left : List α) (lcs : List Nat) :
    List Nat → Nat → List (List α) → List (List α)
  | [], _, res => res
  | k :: ks, idx, res =>
      let cnt := lcs.getD k 0
      if 0 < cnt then
        giFill left lcs ks (idx + cnt) (res.set k (res.getD k [] ++ (left.drop idx).take cnt))
      else giFill left lcs ks idx res

/-- `WeightedGroupAssigner._assign_gcd_interleaved` (lines 100-143).
`int(w)` is the identity on the Nat-valued weights.  When the gcd is 0 (all
weights zero) Python raises `ZeroDivisionError` computing `w // gcd_val`. -/
def assign_gcd_interleaved {α : Type} (ws : List Nat) (data : List α) : PyResult α :=
  if gcd_list ws = 0 then .exn "ZeroDivisionError"
  else
    match giLoop data (ws.map fun w => w / gcd_list ws)
        (largest_remainder_method data.length ws) ws.length (data.length + 1)
        ⟨ws.map fun _ => [], ws.map fun _ => 0, 0⟩ with
    | none => .diverge
    | some st =>
        if (data.drop st.idx).isEmpty then .ok st.res
        else
          .ok (giFill (data.drop st.idx)
            ((List.range ws.length).map fun k =>
              (largest_remainder_method data.length ws).getD k 0 - st.dist.getD k 0)
            (List.range ws.length) 0 st.res)

/-- The validation performed by `WeightedGroupAssigner.__init__`
(lines 19-27): reject an empty weights dict. -/
def wga_init_check (ws : List Nat) : Except String Unit :=
  if ws.isEmpty then .error "ValueError: weights must be a non-empty dict"
  else .ok ()

/-- `WeightedGroupAssigner.assign` (lines 145-173): the empty-weights or
empty-data early return precedes the mode dispatch, and an unknown mode
raises `ValueError` only after that check. -/
def wga_assign {α : Type} (ws : List Nat) (data : List α) (mode : String)
    (bs : Nat) : PyResult α :=
  if ws.length = 0 ∨ data.length = 0 then .ok (ws.map fun _ => [])
  else if mode = "chunk" then .ok (assign_chunk ws data)
  else if mode = "block_interleaved" then assign_block_interleaved ws data bs
  else if mode = "gcd_interleaved" then assign_gcd_interleaved ws data
  else .exn "ValueError: invalid mode"

/-- The partition invariant of claim C2 for a computed per-group count list:
the per-group lengths match the counts, the concatenation is a permutation of
the input (each item used exactly once), each group's list is a subsequence
of the input (relative order preserved), and — whenever the input has no
duplicates — the groups are pairwise disjoint. -/
def IsValidPartition {α : Type} (data : List α) (counts : List Nat)
    (res : List (List α)) : Prop :=
  res.map (fun l => l.length) = counts
  ∧ res.flatten.Perm data
  ∧ (∀ l ∈ res, l.Sublist data)
  ∧ (data.Nodup → List.Pairwise List.Disjoint res)

/-! ### Helpers for set-based state updates -/

theorem getD_set_eq {β : Type} (l : List β) (k : Nat) (v d : β) (h : k < l.length) :
    (l.set k v).getD k d = v := by
  rw [List.getD_eq_getElem?_getD, List.getElem?_set]
  simp [h]

theorem getD_set_ne {β : Type} (l : List β) {k j : Nat} (v d : β) (h : k ≠ j) :
    (l.set k v).getD j d = l.getD j d := by
  rw [List.getD_eq_getElem?_getD, List.getElem?_set, if_neg h,
    ← List.getD_eq_getElem?_getD]

theorem sum_set_getD_add :
    ∀ (l : List Nat) (k m : Nat), k < l.length →
      (l.set k (l.getD k 0 + m)).sum = l.sum + m
  | [], k, m, h => by simp at h
  | x :: xs, 0, m, _ => by
    rw [List.getD_cons_zero, List.set_cons_zero]
    simp
    omega
  | x :: xs, k + 1, m, h => by
    rw [List.getD_cons_succ, List.set_cons_succ]
    simp only [List.sum_cons]
    rw [sum_set_getD_add xs k m (by simpa using Nat.lt_of_succ_lt_succ h)]
    omega

theorem flatten_set_append_perm {β : Type} :
    ∀ (res : List (List β)) (k : Nat) (s : List β), k < res.length →
      (res.set k (res.getD k [] ++ s)).flatten.Perm (res.flatten ++ s)
  | [], k, s, h => by simp at h
  | x :: xs, 0, s, _ => by
    rw [List.getD_cons_zero, List.set_cons_zero, List.flatten_cons, List.flatten_cons]
    rw [List.append_assoc, List.append_assoc]
    exact List.Perm.append_left x List.perm_append_comm
  | x :: xs, k + 1, s, h => by
    rw [List.getD_cons_succ, List.set_cons_succ, List.flatten_cons, List.flatten_cons]
    have ih := flatten_set_append_perm xs k s (by simpa using Nat.lt_of_succ_lt_succ h)
    rw [List.append_assoc]
    exact List.Perm.append_left x ih

/-- A clean packaging of the partition invariant from its three computational
components. -/
theorem partition_of_parts {α : Type} {data : List α} {counts : List Nat}
    {res : List (List α)} (h1 : res.map (fun l => l.length) = counts)
    (h2 : res.flatten.Perm data) (h3 : ∀ l ∈ res, l.Sublist data) :
    IsValidPartition data counts res := by
  refine ⟨h1, h2, h3, fun hnd => ?_⟩
  have hfl : res.flatten.Nodup := (h2.nodup_iff).mpr hnd
  exact (List.nodup_flatten.mp hfl).2

/-! ### The chunk policy satisfies the partition invariant -/

theorem assign_chunk_go_map_length {α : Type} (data : List α) :
    ∀ (cs : List Nat) (idx : Nat), idx + cs.sum ≤ data.length →
      (assign_chunk_go data idx cs).map (fun l => l.length) = cs
  | [], idx, _ => rfl
  | c :: cs, idx, h => by
    simp only [assign_chunk_go, List.map_cons]
    have hsum : c + cs.sum = (c :: cs).sum := by simp
    congr 1
    · rw [List.length_take, List.length_drop]
      simp only [List.sum_cons] at h
      omega
    · apply assign_chunk_go_map_length data cs (idx + c)
      simp only [List.sum_cons] at h
      omega

theorem assign_chunk_go_flatten {α : Type} (data : List α) :
    ∀ (cs : List Nat) (idx : Nat),
      (assign_chunk_go data idx cs).flatten = (data.drop idx).take cs.sum
  | [], idx => by simp [assign_chunk_go]
  | c :: cs, idx => by
    simp only [assign_chunk_go, List.flatten_cons,
      assign_chunk_go_flatten data cs (idx + c), List.sum_cons]
    rw [List.take_add, List.drop_drop]

theorem assign_chunk_go_sublist {α : Type} (data : List α) :
    ∀ (cs : List Nat) (idx : Nat), ∀ l ∈ assign_chunk_go data idx cs, l.Sublist data
  | [], idx => by simp [assign_chunk_go]
  | c :: cs, idx => by
    intro l hl
    simp only [assign_chunk_go] at hl
    rcases List.mem_cons.mp hl with rfl | hl
    · exact (List.take_sublist _ _).trans (List.drop_sublist _ _)
    · exact assign_chunk_go_sublist data cs (idx + c) l hl

/-- The chunk policy partitions the input according to the largest remainder
quotas whenever the total weight is positive. -/
theorem assign_chunk_partition {α : Type} (ws : List Nat) (data : List α)
    (hs : 0 < ws.sum) :
    IsValidPartition data (largest_remainder_method data.length ws)
      (assign_chunk ws data) := by
  have hsum : (largest_remainder_method data.length ws).sum = data.length :=
    lrm_sum data.length ws hs
  apply partition_of_parts
  · apply assign_chunk_go_map_length
    omega
  · rw [assign_chunk, assign_chunk_go_flatten, hsum, List.drop_zero,
      List.take_length]
  · exact assign_chunk_go_sublist data _ 0

/-! ### Pointwise comparison helpers for Nat lists -/

theorem sum_le_ptwise : ∀ (a b : List Nat), b.length = a.length →
    (∀ j, b.getD j 0 ≤ a.getD j 0) → b.sum ≤ a.sum
  | [], [], _, _ => le_refl 0
  | [], y :: ys, h, _ => by simp at h
  | x :: xs, [], _, _ => Nat.zero_le _
  | x :: xs, y :: ys, h, hle => by
    simp only [List.sum_cons]
    have h0 := hle 0
    simp only [List.getD_cons_zero] at h0
    have := sum_le_ptwise xs ys (by simpa using h)
      (fun j => by simpa only [List.getD_cons_succ] using hle (j + 1))
    omega

theorem sum_add_sub_le : ∀ (a b : List Nat), b.length = a.length →
    (∀ j, b.getD j 0 ≤ a.getD j 0) →
    ∀ k, b.sum + (a.getD k 0 - b.getD k 0) ≤ a.sum
  | [], [], _, _, _ => by simp
  | [], y :: ys, h, _, _ => by simp at h
  | x :: xs, [], h, _, _ => by simp at h
  | x :: xs, y :: ys, h, hle, 0 => by
    simp only [List.sum_cons, List.getD_cons_zero]
    have h0 := hle 0
    simp only [List.getD_cons_zero] at h0
    have := sum_le_ptwise xs ys (by simpa using h)
      (fun j => by simpa only [List.getD_cons_succ] using hle (j + 1))
    omega
  | x :: xs, y :: ys, h, hle, k + 1 => by
    simp only [List.sum_cons, List.getD_cons_succ]
    have h0 := hle 0
    simp only [List.getD_cons_zero] at h0
    have := sum_add_sub_le xs ys (by simpa using h)
      (fun j => by simpa only [List.getD_cons_succ] using hle (j + 1)) k
    omega

theorem exists_getD_lt (a b : List Nat) (hlen : b.length = a.length)
    (h : b.sum < a.sum) : ∃ k, b.getD k 0 < a.getD k 0 := by
  by_contra hc
  push_neg at hc
  have := sum_le_ptwise b a hlen.symm hc
  omega

theorem getD_eq_of_sum_eq (a b : List Nat) (hlen : b.length = a.length)
    (hle : ∀ j, b.getD j 0 ≤ a.getD j 0) (hsum : b.sum = a.sum) (k : Nat) :
    b.getD k 0 = a.getD k 0 := by
  have := sum_add_sub_le a b hlen hle k
  have h2 := hle k
  omega

theorem getD_le_sum : ∀ (l : List Nat) (k : Nat), l.getD k 0 ≤ l.sum
  | [], _ => by simp
  | x :: xs, 0 => by simp
  | x :: xs, k + 1 => by
    simp only [List.getD_cons_succ, List.sum_cons]
    have := getD_le_sum xs k
    omega

theorem set_getD_self {β : Type} (l : List β) (k : Nat) (d : β) (hk : k < l.length) :
    l.set k (l.getD k d) = l := by
  apply List.ext_getElem
  · simp
  · intro n h1 h2
    rw [List.getElem_set]
    split
    · next heq =>
      subst heq
      rw [List.getD_eq_getElem l d hk]
    · rfl

theorem getD_map_const {β γ : Type} (l : List β) (c : γ) (k : Nat) :
    (l.map fun _ => c).getD k c = c := by
  by_cases h : k < l.length
  · rw [getD_map_of_lt _ _ _ _ h]
  · rw [List.getD_eq_default]
    simpa using h

theorem flatten_map_nil {β γ : Type} (l : List β) :
    (l.map fun _ => ([] : List γ)).flatten = [] := by
  induction l with
  | nil => rfl
  | cons x xs ih => simp [ih]

/-! ### Invariants of the block-interleaved loop -/

/-- Loop invariant of `_assign_block_interleaved`: the result and count lists
have one entry per group, the assigned counts sum to the data index, no group
exceeds its quota, each group's list length equals its assigned count, each
group's list is a subsequence of the consumed prefix, and the concatenation is
a permutation of the consumed prefix. -/
structure BIInv {α : Type} (data : List α) (counts : List Nat) (st : BIState α) : Prop where
  hres : st.res.length = counts.length
  htc : st.tc.length = counts.length
  hsum : st.tc.sum = st.idx
  hle : ∀ k, st.tc.getD k 0 ≤ counts.getD k 0
  hlen : ∀ k, (st.res.getD k []).length = st.tc.getD k 0
  hsub : ∀ l ∈ st.res, l.Sublist (data.take st.idx)
  hperm : st.res.flatten.Perm (data.take st.idx)

theorem biInit_inv {α : Type} (ws : List Nat) (data : List α) (counts : List Nat)
    (hc : counts.length = ws.length) : BIInv data counts (biInit (α := α) ws) := by
  refine ⟨by simp [biInit, hc], by simp [biInit, hc], ?_, ?_, ?_, ?_, ?_⟩
  · simp [biInit]
  · intro k
    have : ((ws.map fun _ => 0).getD k 0) = 0 := getD_map_const ws 0 k
    simp [biInit, this]
  · intro k
    have h1 : ((ws.map fun _ => ([] : List α)).getD k []) = [] := getD_map_const ws [] k
    have h2 : ((ws.map fun _ => 0).getD k 0) = 0 := getD_map_const ws 0 k
    simp [biInit, h1, h2]
  · intro l hl
    simp only [biInit, List.mem_map] at hl
    rcases hl with ⟨_, _, rfl⟩
    simp
  · simp [biInit, flatten_map_nil]


theorem biVisit_inv {α : Type} (bs : Nat) (data : List α) (counts : List Nat)
    (st : BIState α) (k : Nat) (hinv : BIInv data counts st)
    (hcs : counts.sum = data.length) :
    BIInv data counts (biVisit bs data counts st k)
      ∧ st.idx ≤ (biVisit bs data counts st k).idx := by
  by_cases hguard : 0 < min bs (counts.getD k 0 - st.tc.getD k 0) ∧ st.idx < data.length
  · have hvis : biVisit bs data counts st k
        = { res := st.res.set k (st.res.getD k []
              ++ (data.drop st.idx).take (min bs (counts.getD k 0 - st.tc.getD k 0)))
            tc := st.tc.set k (st.tc.getD k 0
              + min bs (counts.getD k 0 - st.tc.getD k 0))
            idx := st.idx + min bs (counts.getD k 0 - st.tc.getD k 0) } := by
      unfold biVisit
      rw [if_pos hguard]
    rw [hvis]
    set tk := min bs (counts.getD k 0 - st.tc.getD k 0) with htkdef
    have htkpos : 0 < tk := hguard.1
    have htkneed : tk ≤ counts.getD k 0 - st.tc.getD k 0 := min_le_right _ _
    have hkc : k < counts.length := by
      by_contra hk
      have h0 : counts.getD k 0 = 0 := List.getD_eq_default _ _ (by omega)
      omega
    have hktc : k < st.tc.length := by rw [hinv.htc]; exact hkc
    have hkres : k < st.res.length := by rw [hinv.hres]; exact hkc
    have hidxtk : st.idx + tk ≤ data.length := by
      have h := sum_add_sub_le counts st.tc hinv.htc hinv.hle k
      rw [hinv.hsum] at h
      omega
    have hslice : ((data.drop st.idx).take tk).length = tk := by
      rw [List.length_take, List.length_drop]
      omega
    have htake : data.take (st.idx + tk)
        = data.take st.idx ++ (data.drop st.idx).take tk := List.take_add _ _ _
    constructor
    · refine ⟨?_, ?_, ?_, ?_, ?_, ?_, ?_⟩
      · show (st.res.set k _).length = counts.length
        rw [List.length_set, hinv.hres]
      · show (st.tc.set k _).length = counts.length
        rw [List.length_set, hinv.htc]
      · show (st.tc.set k (st.tc.getD k 0 + tk)).sum = st.idx + tk
        rw [sum_set_getD_add _ _ _ hktc, hinv.hsum]
      · intro j
        show (st.tc.set k (st.tc.getD k 0 + tk)).getD j 0 ≤ counts.getD j 0
        by_cases hj : k = j
        · subst hj
          rw [getD_set_eq _ _ _ _ hktc]
          omega
        · rw [getD_set_ne _ _ _ hj]
          exact hinv.hle j
      · intro j
        show ((st.res.set k _).getD j []).length
          = (st.tc.set k (st.tc.getD k 0 + tk)).getD j 0
        by_cases hj : k = j
        · subst hj
          rw [getD_set_eq _ _ _ _ hkres, getD_set_eq _ _ _ _ hktc,
            List.length_append, hinv.hlen k, hslice]
        · rw [getD_set_ne _ _ _ hj, getD_set_ne _ _ _ hj]
          exact hinv.hlen j
      · intro l hl
        show l.Sublist (data.take (st.idx + tk))
        rcases List.mem_or_eq_of_mem_set hl with hmem | rfl
        · exact (hinv.hsub l hmem).trans
            (List.take_prefix_take_left data (by omega)).sublist
        · rw [htake]
          refine List.Sublist.append ?_ (List.Sublist.refl _)
          have hresmem : st.res.getD k [] ∈ st.res := by
            rw [List.getD_eq_getElem _ _ hkres]
            exact List.getElem_mem _
          exact hinv.hsub _ hresmem
      · show (st.res.set k (st.res.getD k []
            ++ (data.drop st.idx).take tk)).flatten.Perm (data.take (st.idx + tk))
        rw [htake]
        exact (flatten_set_append_perm st.res k _ hkres).trans
          (hinv.hperm.append_right _)
    · show st.idx ≤ st.idx + tk
      omega
  · have hvis : biVisit bs data counts st k = st := by
      unfold biVisit
      rw [if_neg hguard]
    rw [hvis]
    exact ⟨hinv, le_refl _⟩

theorem biSweep_inv {α : Type} (bs : Nat) (data : List α) (counts : List Nat)
    (hcs : counts.sum = data.length) :
    ∀ (ks : List Nat) (st : BIState α), BIInv data counts st →
      BIInv data counts (biSweep bs data counts ks st)
        ∧ st.idx ≤ (biSweep bs data counts ks st).idx
  | [], st, hinv => ⟨hinv, le_refl _⟩
  | k :: ks, st, hinv => by
    have hv := biVisit_inv bs data counts st k hinv hcs
    have hrec := biSweep_inv bs data counts hcs ks (biVisit bs data counts st k) hv.1
    exact ⟨hrec.1, le_trans hv.2 hrec.2⟩

theorem biSweep_progress {α : Type} (bs : Nat) (data : List α) (counts : List Nat)
    (hbs : 0 < bs) (hcs : counts.sum = data.length) :
    ∀ (ks : List Nat) (st : BIState α), BIInv data counts st →
      (∃ k ∈ ks, st.tc.getD k 0 < counts.getD k 0) →
      st.idx < (biSweep bs data counts ks st).idx
  | [], st, _, hex => by
    rcases hex with ⟨k, hk, _⟩
    simp at hk
  | k :: ks, st, hinv, hex => by
    by_cases hk : st.tc.getD k 0 < counts.getD k 0
    · -- the head visit fires
      have hidx : st.idx < data.length := by
        have h := sum_add_sub_le counts st.tc hinv.htc hinv.hle k
        rw [hinv.hsum] at h
        omega
      have hguard : 0 < min bs (counts.getD k 0 - st.tc.getD k 0)
          ∧ st.idx < data.length := by
        constructor
        · omega
        · exact hidx
      have hvidx : (biVisit bs data counts st k).idx
          = st.idx + min bs (counts.getD k 0 - st.tc.getD k 0) := by
        unfold biVisit
        rw [if_pos hguard]
      have hv := biVisit_inv bs data counts st k hinv hcs
      have hrec := biSweep_inv bs data counts hcs ks (biVisit bs data counts st k) hv.1
      show st.idx < (biSweep bs data counts ks (biVisit bs data counts st k)).idx
      have := hrec.2
      rw [hvidx] at this
      omega
    · -- the head group is saturated; the visit is a no-op
      have hvis : biVisit bs data counts st k = st := by
        unfold biVisit
        rw [if_neg (by omega)]
      have hex2 : ∃ k2 ∈ ks, st.tc.getD k2 0 < counts.getD k2 0 := by
        rcases hex with ⟨k2, hk2, hlt⟩
        rcases List.mem_cons.mp hk2 with rfl | hk2
        · omega
        · exact ⟨k2, hk2, hlt⟩
      show st.idx < (biSweep bs data counts ks (biVisit bs data counts st k)).idx
      rw [hvis]
      exact biSweep_progress bs data counts hbs hcs ks st hinv hex2

theorem biLoop_stop {α : Type} (bs : Nat) (data : List α) (counts : List Nat)
    (fuel : Nat) (st : BIState α) (h : ¬ st.idx < data.length) :
    biLoop bs data counts fuel st = some st := by
  cases fuel with
  | zero => simp [biLoop, h]
  | succ fuel => simp [biLoop, h]

theorem biLoop_some {α : Type} (bs : Nat) (data : List α) (counts : List Nat)
    (hbs : 0 < bs) (hcs : counts.sum = data.length) :
    ∀ (fuel : Nat) (st : BIState α), BIInv data counts st →
      data.length - st.idx ≤ fuel →
      ∃ stf, biLoop bs data counts fuel st = some stf
        ∧ BIInv data counts stf ∧ stf.idx = data.length
  | 0, st, hinv, hfuel => by
    have hle : st.idx ≤ data.length := by
      have := sum_le_ptwise counts st.tc hinv.htc hinv.hle
      rw [hinv.hsum, hcs] at this
      exact this
    have heq : st.idx = data.length := by omega
    refine ⟨st, ?_, hinv, heq⟩
    simp [biLoop, heq]
  | fuel + 1, st, hinv, hfuel => by
    by_cases hidx : st.idx < data.length
    · have hex : ∃ k, st.tc.getD k 0 < counts.getD k 0 := by
        apply exists_getD_lt counts st.tc hinv.htc
        rw [hinv.hsum]
        omega
      rcases hex with ⟨k, hk⟩
      have hkmem : k ∈ List.range counts.length := by
        rw [List.mem_range]
        by_contra hkc
        have h0 : counts.getD k 0 = 0 := List.getD_eq_default _ _ (by omega)
        omega
      have hprog := biSweep_progress bs data counts hbs hcs
        (List.range counts.length) st hinv ⟨k, hkmem, hk⟩
      have hswinv := (biSweep_inv bs data counts hcs (List.range counts.length) st hinv).1
      have hrec := biLoop_some bs data counts hbs hcs fuel
        (biSweep bs data counts (List.range counts.length) st) hswinv (by omega)
      rcases hrec with ⟨stf, hloop, hinvf, hidxf⟩
      refine ⟨stf, ?_, hinvf, hidxf⟩
      show biLoop bs data counts (fuel + 1) st = some stf
      unfold biLoop
      rw [if_pos hidx]
      exact hloop
    · refine ⟨st, biLoop_stop bs data counts _ st hidx, hinv, ?_⟩
      have hle : st.idx ≤ data.length := by
        have := sum_le_ptwise counts st.tc hinv.htc hinv.hle
        rw [hinv.hsum, hcs] at this
        exact this
      omega

/-- Final-state characterization: the per-group result lists of a completed
block-interleaved run have exactly the quota lengths and partition the data. -/
theorem bi_final_partition {α : Type} (data : List α) (counts : List Nat)
    (st : BIState α) (hinv : BIInv data counts st) (hidx : st.idx = data.length)
    (hcs : counts.sum = data.length) :
    IsValidPartition data counts st.res := by
  have htc_eq : ∀ k, st.tc.getD k 0 = counts.getD k 0 := by
    intro k
    apply getD_eq_of_sum_eq counts st.tc hinv.htc hinv.hle
    rw [hinv.hsum, hidx, hcs]
  apply partition_of_parts
  · apply List.ext_getElem
    · rw [List.length_map, hinv.hres]
    · intro n h1 h2
      rw [List.getElem_map]
      have hn : n < st.res.length := by simpa using h1
      rw [← List.getD_eq_getElem st.res [] hn, ← List.getD_eq_getElem counts 0 h2]
      rw [hinv.hlen n, htc_eq n]
  · have := hinv.hperm
    rwa [hidx, List.take_length] at this
  · intro l hl
    have := hinv.hsub l hl
    rwa [hidx, List.take_length] at this

/-- The block-interleaved policy with positive block size and positive total
weight terminates and partitions the input according to the quotas. -/
theorem assign_block_interleaved_partition {α : Type} (ws : List Nat)
    (data : List α) (bs : Nat) (hs : 0 < ws.sum) (hbs : 0 < bs) :
    ∃ res, assign_block_interleaved ws data bs = PyResult.ok res
      ∧ IsValidPartition data (largest_remainder_method data.length ws) res := by
  have hcs : (largest_remainder_method data.length ws).sum = data.length :=
    lrm_sum data.length ws hs
  have hinit := biInit_inv (α := α) ws data (largest_remainder_method data.length ws)
    (lrm_length data.length ws)
  have hloop := biLoop_some bs data (largest_remainder_method data.length ws) hbs hcs
    (data.length + 1) (biInit ws) hinit (by simp [biInit])
  rcases hloop with ⟨stf, hloop, hinvf, hidxf⟩
  refine ⟨stf.res, ?_, bi_final_partition data _ stf hinvf hidxf hcs⟩
  unfold assign_block_interleaved
  simp only [hloop]

/-! ### Invariants of the gcd-interleaved loop -/

/-- Loop invariant of `_assign_gcd_interleaved`, mirroring `BIInv`. -/
structure GIInv {α : Type} (data : List α) (finals : List Nat) (st : GIState α) : Prop where
  hres : st.res.length = finals.length
  hdist : st.dist.length = finals.length
  hsum : st.dist.sum = st.idx
  hle : ∀ k, st.dist.getD k 0 ≤ finals.getD k 0
  hlen : ∀ k, (st.res.getD k []).length = st.dist.getD k 0
  hsub : ∀ l ∈ st.res, l.Sublist (data.take st.idx)
  hperm : st.res.flatten.Perm (data.take st.idx)

theorem giStep_inv {α : Type} (data : List α) (finals : List Nat)
    (st : GIState α) (k : Nat)
    (hguard : st.idx < data.length ∧ st.dist.getD k 0 < finals.getD k 0)
    (hinv : GIInv data finals st) :
    GIInv data finals
      ⟨st.res.set k (st.res.getD k [] ++ (data.drop st.idx).take 1),
        st.dist.set k (st.dist.getD k 0 + 1), st.idx + 1⟩ := by
  have hkfin : k < finals.length := by
    by_contra hk
    have h0 : finals.getD k 0 = 0 := List.getD_eq_default _ _ (by omega)
    omega
  have hkdist : k < st.dist.length := by rw [hinv.hdist]; exact hkfin
  have hkres : k < st.res.length := by rw [hinv.hres]; exact hkfin
  have hslice : ((data.drop st.idx).take 1).length = 1 := by
    rw [List.length_take, List.length_drop]
    omega
  have htake : data.take (st.idx + 1)
      = data.take st.idx ++ (data.drop st.idx).take 1 := List.take_add _ _ _
  refine ⟨?_, ?_, ?_, ?_, ?_, ?_, ?_⟩
  · show (st.res.set k _).length = finals.length
    rw [List.length_set, hinv.hres]
  · show (st.dist.set k _).length = finals.length
    rw [List.length_set, hinv.hdist]
  · show (st.dist.set k (st.dist.getD k 0 + 1)).sum = st.idx + 1
    rw [sum_set_getD_add _ _ _ hkdist, hinv.hsum]
  · intro j
    show (st.dist.set k (st.dist.getD k 0 + 1)).getD j 0 ≤ finals.getD j 0
    by_cases hj : k = j
    · subst hj
      rw [getD_set_eq _ _ _ _ hkdist]
      omega
    · rw [getD_set_ne _ _ _ hj]
      exact hinv.hle j
  · intro j
    show ((st.res.set k _).getD j []).length
      = (st.dist.set k (st.dist.getD k 0 + 1)).getD j 0
    by_cases hj : k = j
    · subst hj
      rw [getD_set_eq _ _ _ _ hkres, getD_set_eq _ _ _ _ hkdist,
        List.length_append, hinv.hlen k, hslice]
    · rw [getD_set_ne _ _ _ hj, getD_set_ne _ _ _ hj]
      exact hinv.hlen j
  · intro l hl
    show l.Sublist (data.take (st.idx + 1))
    rcases List.mem_or_eq_of_mem_set hl with hmem | rfl
    · exact (hinv.hsub l hmem).trans
        (List.take_prefix_take_left data (by omega)).sublist
    · rw [htake]
      refine List.Sublist.append ?_ (List.Sublist.refl _)
      have hresmem : st.res.getD k [] ∈ st.res := by
        rw [List.getD_eq_getElem _ _ hkres]
        exact List.getElem_mem _
      exact hinv.hsub _ hresmem
  · show (st.res.set k (st.res.getD k []
        ++ (data.drop st.idx).take 1)).flatten.Perm (data.take (st.idx + 1))
    rw [htake]
    exact (flatten_set_append_perm st.res k _ hkres).trans
      (hinv.hperm.append_right _)

theorem giEmit_succ {α : Type} (data : List α) (finals : List Nat) (k m : Nat)
    (st : GIState α) (flag : Bool) :
    giEmit data finals k (m + 1) (st, flag)
      = if st.idx < data.length ∧ st.dist.getD k 0 < finals.getD k 0 then
          giEmit data finals k m
            (⟨st.res.set k (st.res.getD k [] ++ (data.drop st.idx).take 1),
              st.dist.set k (st.dist.getD k 0 + 1), st.idx + 1⟩, true)
        else giEmit data finals k m (st, flag) := rfl

theorem giSweep_cons {α : Type} (data : List α) (rcs finals : List Nat)
    (k : Nat) (ks : List Nat) (st : GIState α) (flag : Bool) :
    giSweep data rcs finals (k :: ks) (st, flag)
      = if st.dist.getD k 0 + rcs.getD k 0 ≤ finals.getD k 0 then
          giSweep data rcs finals ks (giEmit data finals k (rcs.getD k 0) (st, flag))
        else giSweep data rcs finals ks (st, flag) := rfl

theorem giEmit_inv {α : Type} (data : List α) (finals : List Nat) (k : Nat) :
    ∀ (m : Nat) (st : GIState α) (flag : Bool), GIInv data finals st →
      GIInv data finals (giEmit data finals k m (st, flag)).1
      ∧ st.idx ≤ (giEmit data finals k m (st, flag)).1.idx
      ∧ ((giEmit data finals k m (st, flag)).2 = true
          ↔ flag = true ∨ st.idx < (giEmit data finals k m (st, flag)).1.idx)
  | 0, st, flag, hinv => by
    refine ⟨hinv, le_refl _, ?_⟩
    show flag = true ↔ flag = true ∨ st.idx < st.idx
    simp
  | m + 1, st, flag, hinv => by
    rw [giEmit_succ]
    by_cases hguard : st.idx < data.length ∧ st.dist.getD k 0 < finals.getD k 0
    · rw [if_pos hguard]
      have hstep := giStep_inv data finals st k hguard hinv
      have hrec := giEmit_inv data finals k m _ true hstep
      refine ⟨hrec.1, ?_, ?_⟩
      · have := hrec.2.1
        simp only [] at this
        omega
      · rw [hrec.2.2]
        have := hrec.2.1
        simp only [] at this
        constructor
        · intro
          right
          omega
        · intro
          left
          rfl
    · rw [if_neg hguard]
      exact giEmit_inv data finals k m st flag hinv

theorem giSweep_inv {α : Type} (data : List α) (rcs finals : List Nat) :
    ∀ (ks : List Nat) (st : GIState α) (flag : Bool), GIInv data finals st →
      GIInv data finals (giSweep data rcs finals ks (st, flag)).1
      ∧ st.idx ≤ (giSweep data rcs finals ks (st, flag)).1.idx
      ∧ ((giSweep data rcs finals ks (st, flag)).2 = true
          ↔ flag = true ∨ st.idx < (giSweep data rcs finals ks (st, flag)).1.idx)
  | [], st, flag, hinv => by
    refine ⟨hinv, le_refl _, ?_⟩
    show flag = true ↔ flag = true ∨ st.idx < st.idx
    simp
  | k :: ks, st, flag, hinv => by
    rw [giSweep_cons]
    by_cases hguard : st.dist.getD k 0 + rcs.getD k 0 ≤ finals.getD k 0
    · rw [if_pos hguard]
      have hemit := giEmit_inv data finals k (rcs.getD k 0) st flag hinv
      have hrec := giSweep_inv data rcs finals ks
        (giEmit data finals k (rcs.getD k 0) (st, flag)).1
        (giEmit data finals k (rcs.getD k 0) (st, flag)).2 hemit.1
      have hpair : giSweep data rcs finals ks (giEmit data finals k (rcs.getD k 0) (st, flag))
          = giSweep data rcs finals ks
            ((giEmit data finals k (rcs.getD k 0) (st, flag)).1,
             (giEmit data finals k (rcs.getD k 0) (st, flag)).2) := by
        rfl
      rw [hpair]
      refine ⟨hrec.1, le_trans hemit.2.1 hrec.2.1, ?_⟩
      rw [hrec.2.2, hemit.2.2]
      have h1 := hemit.2.1
      have h2 := hrec.2.1
      constructor
      · intro h
        rcases h with (h | h) | h
        · exact Or.inl h
        · right; omega
        · right; omega
      · intro h
        rcases h with h | h
        · exact Or.inl (Or.inl h)
        · by_cases hmid : st.idx < (giEmit data finals k (rcs.getD k 0) (st, flag)).1.idx
          · exact Or.inl (Or.inr hmid)
          · right; omega
    · rw [if_neg hguard]
      exact giSweep_inv data rcs finals ks st flag hinv

theorem giLoop_zero {α : Type} (data : List α) (rcs finals : List Nat) (n : Nat)
    (st : GIState α) : giLoop data rcs finals n 0 st = none := rfl

theorem giLoop_succ {α : Type} (data : List α) (rcs finals : List Nat) (n fuel : Nat)
    (st : GIState α) :
    giLoop data rcs finals n (fuel + 1) st
      = if (giSweep data rcs finals (List.range n) (st, false)).2 = true
        then giLoop data rcs finals n fuel
          (giSweep data rcs finals (List.range n) (st, false)).1
        else some (giSweep data rcs finals (List.range n) (st, false)).1 := by
  show (match giSweep data rcs finals (List.range n) (st, false) with
    | (st2, true) => giLoop data rcs finals n fuel st2
    | (st2, false) => some st2) = _
  rcases hsw : giSweep data rcs finals (List.range n) (st, false) with ⟨st2, b⟩
  cases b <;> simp

theorem giLoop_some {α : Type} (data : List α) (rcs finals : List Nat) (n : Nat)
    (hcs : finals.sum = data.length) :
    ∀ (fuel : Nat) (st : GIState α), GIInv data finals st →
      data.length - st.idx < fuel →
      ∃ stf, giLoop data rcs finals n fuel st = some stf ∧ GIInv data finals stf
  | 0, st, _, hfuel => absurd hfuel (by omega)
  | fuel + 1, st, hinv, hfuel => by
    rw [giLoop_succ]
    have hsw := giSweep_inv data rcs finals (List.range n) st false hinv
    by_cases hflag : (giSweep data rcs finals (List.range n) (st, false)).2 = true
    · rw [if_pos hflag]
      have hidxlt : st.idx < (giSweep data rcs finals (List.range n) (st, false)).1.idx := by
        rcases hsw.2.2.mp hflag with h | h
        · simp at h
        · exact h
      have hbound : (giSweep data rcs finals (List.range n) (st, false)).1.idx
          ≤ data.length := by
        have h1 := hsw.1.hsum
        have h2 := sum_le_ptwise finals
          (giSweep data rcs finals (List.range n) (st, false)).1.dist
          hsw.1.hdist hsw.1.hle
        omega
      exact giLoop_some data rcs finals n hcs fuel _ hsw.1 (by omega)
    · rw [if_neg hflag]
      exact ⟨_, rfl, hsw.1⟩

theorem exists_pos_of_sum_pos : ∀ (ws : List Nat), 0 < ws.sum → ∃ w ∈ ws, 0 < w
  | [], h => by simp at h
  | x :: xs, h => by
    by_cases hx : 0 < x
    · exact ⟨x, List.mem_cons_self _ _, hx⟩
    · have hx0 : x = 0 := by omega
      simp only [List.sum_cons, hx0, Nat.zero_add] at h
      rcases exists_pos_of_sum_pos xs h with ⟨w, hw, hwpos⟩
      exact ⟨w, List.mem_cons_of_mem _ hw, hwpos⟩

theorem foldl_gcd_pos : ∀ (xs : List Nat) (a : Nat),
    (0 < a ∨ ∃ w ∈ xs, 0 < w) → 0 < xs.foldl Nat.gcd a
  | [], a, h => by
    rcases h with h | ⟨w, hw, _⟩
    · exact h
    · simp at hw
  | x :: xs, a, h => by
    show 0 < xs.foldl Nat.gcd (Nat.gcd a x)
    apply foldl_gcd_pos xs (Nat.gcd a x)
    rcases h with h | ⟨w, hw, hwpos⟩
    · left
      have : Nat.gcd a x ≠ 0 := fun hg => by
        rcases Nat.gcd_eq_zero_iff.mp hg with ⟨ha, _⟩
        omega
      omega
    · rcases List.mem_cons.mp hw with rfl | hw2
      · left
        have : Nat.gcd a w ≠ 0 := fun hg => by
          rcases Nat.gcd_eq_zero_iff.mp hg with ⟨_, hx⟩
          omega
        omega
      · exact Or.inr ⟨w, hw2, hwpos⟩

theorem gcd_list_pos (ws : List Nat) (hs : 0 < ws.sum) : 0 < gcd_list ws := by
  cases ws with
  | nil => simp at hs
  | cons x xs =>
    show 0 < xs.foldl Nat.gcd x
    apply foldl_gcd_pos
    rcases exists_pos_of_sum_pos (x :: xs) hs with ⟨w, hw, hwpos⟩
    rcases List.mem_cons.mp hw with rfl | hw2
    · exact Or.inl hwpos
    · exact Or.inr ⟨w, hw2, hwpos⟩

theorem getD_range_map {γ : Type} (f : Nat → γ) (n k : Nat) (d : γ) (h : k < n) :
    ((List.range n).map f).getD k d = f k := by
  rw [getD_map_of_lt _ _ _ _ (by simpa using h), List.get_eq_getElem,
    List.getElem_range]

theorem sum_range_map_sub (a b : List Nat) (hlen : b.length = a.length)
    (hle : ∀ j, b.getD j 0 ≤ a.getD j 0) :
    ((List.range a.length).map fun k => a.getD k 0 - b.getD k 0).sum
      = a.sum - b.sum := by
  have h1 : ((List.range a.length).map fun k =>
      (a.getD k 0 - b.getD k 0) + b.getD k 0)
      = (List.range a.length).map fun k => a.getD k 0 := by
    apply List.map_congr_left
    intro j _
    have := hle j
    omega
  have h2 := sum_map_add_nat (List.range a.length)
    (fun k => a.getD k 0 - b.getD k 0) (fun k => b.getD k 0)
  rw [h1] at h2
  have h3 : ((List.range a.length).map fun k => a.getD k 0).sum = a.sum :=
    (congrArg List.sum (list_eq_range_map_getD a 0)).symm
  have h4 : ((List.range a.length).map fun k => b.getD k 0).sum = b.sum := by
    have := list_eq_range_map_getD b 0
    rw [hlen] at this
    exact (congrArg List.sum this).symm
  have h5 := sum_le_ptwise a b hlen hle
  omega

/-- Sum of `lcs` entries over the key window `range' m c`. -/
def sumRange' (lcs : List Nat) (m c : Nat) : Nat :=
  ((List.range' m c).map fun j => lcs.getD j 0).sum

theorem sumRange'_zero (lcs : List Nat) (m : Nat) : sumRange' lcs m 0 = 0 := rfl

theorem sumRange'_succ (lcs : List Nat) (m c : Nat) :
    sumRange' lcs m (c + 1) = lcs.getD m 0 + sumRange' lcs (m + 1) c := rfl

theorem giFill_nil {α : Type} (left : List α) (lcs : List Nat) (pos : Nat)
    (res : List (List α)) : giFill left lcs [] pos res = res := rfl

theorem giFill_cons {α : Type} (left : List α) (lcs : List Nat) (k : Nat)
    (ks : List Nat) (pos : Nat) (res : List (List α)) :
    giFill left lcs (k :: ks) pos res
      = if 0 < lcs.getD k 0 then
          giFill left lcs ks (pos + lcs.getD k 0)
            (res.set k (res.getD k [] ++ (left.drop pos).take (lcs.getD k 0)))
        else giFill left lcs ks pos res := rfl

/-- Full characterization of the contiguous fill loop over the key window
`range' m c`: lengths grow by the fill counts, positions outside the window
are untouched, the concatenation gains exactly the consumed segment of
`left`, and every entry remains a subsequence of the consumed input. -/
theorem giFill_spec {α : Type} (left : List α) (lcs : List Nat) (B : List α) :
    ∀ (c m pos : Nat) (res : List (List α)),
      m + c ≤ res.length →
      pos + sumRange' lcs m c ≤ left.length →
      (∀ l ∈ res, l.Sublist (B ++ left.take pos)) →
      (giFill left lcs (List.range' m c) pos res).length = res.length
      ∧ (∀ k, k < m ∨ m + c ≤ k →
          (giFill left lcs (List.range' m c) pos res).getD k [] = res.getD k [])
      ∧ (∀ k, m ≤ k → k < m + c →
          ((giFill left lcs (List.range' m c) pos res).getD k []).length
            = (res.getD k []).length + lcs.getD k 0)
      ∧ (giFill left lcs (List.range' m c) pos res).flatten.Perm
          (res.flatten ++ (left.drop pos).take (sumRange' lcs m c))
      ∧ (∀ l ∈ giFill left lcs (List.range' m c) pos res,
          l.Sublist (B ++ left.take (pos + sumRange' lcs m c)))
  | 0, m, pos, res, _, _, hsub => by
    refine ⟨rfl, fun k _ => rfl, fun k h1 h2 => by omega, ?_, ?_⟩
    · rw [sumRange'_zero, List.take_zero, List.append_nil]
      exact List.Perm.refl _
    · rw [sumRange'_zero, Nat.add_zero]
      exact hsub
  | c + 1, m, pos, res, hmc, hbound, hsub => by
    have hm : m < res.length := by omega
    have hcons : List.range' m (c + 1) = m :: List.range' (m + 1) c := rfl
    rw [hcons]
    by_cases hcnt : 0 < lcs.getD m 0
    · rw [giFill_cons, if_pos hcnt]
      rw [sumRange'_succ] at hbound
      have hslice : ((left.drop pos).take (lcs.getD m 0)).length = lcs.getD m 0 := by
        rw [List.length_take, List.length_drop]
        omega
      have hsub2 : ∀ l ∈ res.set m (res.getD m []
          ++ (left.drop pos).take (lcs.getD m 0)),
          l.Sublist (B ++ left.take (pos + lcs.getD m 0)) := by
        intro l hl
        have htake : left.take (pos + lcs.getD m 0)
            = left.take pos ++ (left.drop pos).take (lcs.getD m 0) :=
          List.take_add _ _ _
        rcases List.mem_or_eq_of_mem_set hl with hmem | rfl
        · refine (hsub l hmem).trans ?_
          exact List.Sublist.append (List.Sublist.refl _)
            (List.take_prefix_take_left left (by omega)).sublist
        · have hold : res.getD m [] ∈ res := by
            rw [List.getD_eq_getElem _ _ hm]
            exact List.getElem_mem _
          have h1 : (res.getD m [] ++ (left.drop pos).take (lcs.getD m 0)).Sublist
              ((B ++ left.take pos) ++ (left.drop pos).take (lcs.getD m 0)) :=
            List.Sublist.append (hsub _ hold) (List.Sublist.refl _)
          rw [htake, ← List.append_assoc]
          exact h1
      have hrec := giFill_spec left lcs B c (m + 1) (pos + lcs.getD m 0)
        (res.set m (res.getD m [] ++ (left.drop pos).take (lcs.getD m 0)))
        (by rw [List.length_set]; omega) (by omega) hsub2
      refine ⟨?_, ?_, ?_, ?_, ?_⟩
      · rw [hrec.1, List.length_set]
      · intro k hk
        rw [hrec.2.1 k (by omega)]
        exact getD_set_ne _ _ _ (by omega)
      · intro k hk1 hk2
        by_cases hkm : k = m
        · subst hkm
          rw [hrec.2.1 k (Or.inl (by omega)), getD_set_eq _ _ _ _ hm,
            List.length_append, hslice]
        · rw [hrec.2.2.1 k (by omega) (by omega), getD_set_ne _ _ _ (by omega)]
      · have hp1 := hrec.2.2.2.1
        have hp2 := (flatten_set_append_perm res m
          ((left.drop pos).take (lcs.getD m 0)) hm).append_right
          ((left.drop (pos + lcs.getD m 0)).take (sumRange' lcs (m + 1) c))
        have htake2 : (left.drop pos).take (sumRange' lcs m (c + 1))
            = (left.drop pos).take (lcs.getD m 0)
              ++ (left.drop (pos + lcs.getD m 0)).take (sumRange' lcs (m + 1) c) := by
          rw [sumRange'_succ, List.take_add, List.drop_drop]
        refine hp1.trans (hp2.trans ?_)
        rw [htake2, List.append_assoc]
      · intro l hl
        have h := hrec.2.2.2.2 l hl
        have harith : pos + lcs.getD m 0 + sumRange' lcs (m + 1) c
            = pos + sumRange' lcs m (c + 1) := by
          rw [sumRange'_succ]
          omega
        rwa [harith] at h
    · rw [giFill_cons, if_neg hcnt]
      have hcnt0 : lcs.getD m 0 = 0 := by omega
      rw [sumRange'_succ] at hbound
      have hrec := giFill_spec left lcs B c (m + 1) pos res (by omega)
        (by omega) hsub
      refine ⟨hrec.1, ?_, ?_, ?_, ?_⟩
      · intro k hk
        exact hrec.2.1 k (by omega)
      · intro k hk1 hk2
        by_cases hkm : k = m
        · subst hkm
          rw [hrec.2.1 k (Or.inl (by omega)), hcnt0]
          omega
        · exact hrec.2.2.1 k (by omega) (by omega)
      · have := hrec.2.2.2.1
        rwa [sumRange'_succ, hcnt0, Nat.zero_add]
      · intro l hl
        have h := hrec.2.2.2.2 l hl
        rwa [sumRange'_succ, hcnt0, Nat.zero_add]

theorem giInit_inv {α : Type} (ws : List Nat) (data : List α) (finals : List Nat)
    (hc : finals.length = ws.length) :
    GIInv data finals (⟨ws.map fun _ => [], ws.map fun _ => 0, 0⟩ : GIState α) := by
  refine ⟨by simp [hc], by simp [hc], by simp, ?_, ?_, ?_, ?_⟩
  · intro k
    have h2 : ((ws.map fun _ => 0).getD k 0) = 0 := getD_map_const ws 0 k
    simp only []
    rw [h2]
    exact Nat.zero_le _
  · intro k
    have h1 : ((ws.map fun _ => ([] : List α)).getD k []) = [] := getD_map_const ws [] k
    have h2 : ((ws.map fun _ => 0).getD k 0) = 0 := getD_map_const ws 0 k
    simp only []
    rw [h1, h2]
    rfl
  · intro l hl
    simp only [List.mem_map] at hl
    rcases hl with ⟨_, _, rfl⟩
    simp
  · simp [flatten_map_nil]

/-- The gcd-interleaved policy with positive total weight terminates without
raising and partitions the input according to the quotas. -/
theorem assign_gcd_interleaved_partition {α : Type} (ws : List Nat)
    (data : List α) (hs : 0 < ws.sum) :
    ∃ res, assign_gcd_interleaved ws data = PyResult.ok res
      ∧ IsValidPartition data (largest_remainder_method data.length ws) res := by
  have hg : ¬ gcd_list ws = 0 := by
    have := gcd_list_pos ws hs
    omega
  have hcs : (largest_remainder_method data.length ws).sum = data.length :=
    lrm_sum data.length ws hs
  have hflen : (largest_remainder_method data.length ws).length = ws.length :=
    lrm_length data.length ws
  have hinit := giInit_inv (α := α) ws data (largest_remainder_method data.length ws) hflen
  have hloop := giLoop_some data (ws.map fun w => w / gcd_list ws)
    (largest_remainder_method data.length ws) ws.length hcs (data.length + 1)
    ⟨ws.map fun _ => [], ws.map fun _ => 0, 0⟩ hinit (by simp)
  rcases hloop with ⟨st, hloop, hinv⟩
  have hidxle : st.idx ≤ data.length := by
    have h1 := hinv.hsum
    have h2 := sum_le_ptwise (largest_remainder_method data.length ws) st.dist
      hinv.hdist hinv.hle
    omega
  by_cases hempty : (data.drop st.idx).isEmpty = true
  · -- the loop already consumed all the data
    have hidx : st.idx = data.length := by
      rw [List.isEmpty_iff_length_eq_zero, List.length_drop] at hempty
      omega
    have hbiinv : BIInv data (largest_remainder_method data.length ws)
        (⟨st.res, st.dist, st.idx⟩ : BIState α) :=
      ⟨hinv.hres, hinv.hdist, hinv.hsum, hinv.hle, hinv.hlen, hinv.hsub, hinv.hperm⟩
    refine ⟨st.res, ?_, bi_final_partition data _ _ hbiinv hidx hcs⟩
    unfold assign_gcd_interleaved
    rw [if_neg hg]
    simp only [hloop]
    rw [if_pos hempty]
  · -- fill the remaining deficits contiguously
    have hidxlt : st.idx < data.length := by
      rw [List.isEmpty_iff_length_eq_zero, List.length_drop] at hempty
      omega
    have hreslen : st.res.length = ws.length := by
      rw [hinv.hres, hflen]
    set lcs := (List.range ws.length).map fun k =>
      (largest_remainder_method data.length ws).getD k 0 - st.dist.getD k 0 with hlcsdef
    have hlcs : ∀ k, k < ws.length →
        lcs.getD k 0
          = (largest_remainder_method data.length ws).getD k 0 - st.dist.getD k 0 := by
      intro k hk
      rw [hlcsdef]
      exact getD_range_map _ _ _ _ hk
    have hS : sumRange' lcs 0 ws.length = data.length - st.idx := by
      unfold sumRange'
      rw [← List.range_eq_range']
      have hmapeq : (List.range ws.length).map (fun j => lcs.getD j 0)
          = (List.range ws.length).map (fun j =>
            (largest_remainder_method data.length ws).getD j 0 - st.dist.getD j 0) := by
        apply List.map_congr_left
        intro j hj
        exact hlcs j (List.mem_range.mp hj)
      rw [hmapeq]
      have hsub := sum_range_map_sub (largest_remainder_method data.length ws) st.dist
        hinv.hdist hinv.hle
      rw [hflen] at hsub
      rw [hsub, hcs, hinv.hsum]
    have hsub0 : ∀ l ∈ st.res,
        l.Sublist (data.take st.idx ++ (data.drop st.idx).take 0) := by
      intro l hl
      rw [List.take_zero, List.append_nil]
      exact hinv.hsub l hl
    have hfill := giFill_spec (data.drop st.idx) lcs (data.take st.idx)
      ws.length 0 0 st.res
      (by omega) (by rw [hS, List.length_drop]; omega) hsub0
    have htakeS : (data.drop st.idx).take (sumRange' lcs 0 ws.length)
        = data.drop st.idx := by
      rw [hS]
      have hdl : data.length - st.idx = (data.drop st.idx).length := by
        rw [List.length_drop]
      rw [hdl, List.take_length]
    refine ⟨giFill (data.drop st.idx) lcs (List.range ws.length) 0 st.res, ?_, ?_⟩
    · unfold assign_gcd_interleaved
      rw [if_neg hg]
      simp only [hloop]
      rw [if_neg hempty, ← hlcsdef]
    · rw [List.range_eq_range']
      apply partition_of_parts
      · apply List.ext_getElem
        · rw [List.length_map, hfill.1, hreslen, hflen]
        · intro j h1 h2
          rw [List.getElem_map]
          have hj : j < ws.length := by
            rw [List.length_map, hfill.1, hreslen] at h1
            exact h1
          have hjres : j < (giFill (data.drop st.idx) lcs
              (List.range' 0 ws.length) 0 st.res).length := by
            rw [hfill.1, hreslen]
            exact hj
          rw [← List.getD_eq_getElem _ ([] : List α) hjres,
            ← List.getD_eq_getElem (largest_remainder_method data.length ws) 0 h2]
          rw [hfill.2.2.1 j (by omega) (by omega), hlcs j hj, hinv.hlen j]
          have := hinv.hle j
          omega
      · have hp := hfill.2.2.2.1
        rw [List.drop_zero, htakeS] at hp
        refine hp.trans ?_
        have hp2 := hinv.hperm.append_right (data.drop st.idx)
        refine hp2.trans ?_
        rw [List.take_append_drop]
      · intro l hl
        have h := hfill.2.2.2.2 l hl
        rw [Nat.zero_add, htakeS, List.take_append_drop] at h
        exact h

/-- Claim C2, counterexample: with the all-zero weight map `[0]` the chunk
policy returns the all-empty mapping, so the input item `42` appears in no
group subsequence and the partition invariant fails. -/
theorem partition_invariant_cex :
    ¬ (assign_chunk [0] [(42 : Nat)]).flatten.Perm [42] := by decide

/-- Claim C2, amended: for every weight map with positive total weight, every
positive block size and every input list, each of the three policies
(chunk, block_interleaved, gcd_interleaved) returns a mapping whose
subsequence lengths equal the largest-remainder quotas, whose concatenation
is a permutation of the input with every item used exactly once, whose
entries preserve the relative input order, and whose entries are pairwise
disjoint whenever the input has no duplicates. -/
theorem partition_invariant {α : Type} (ws : List Nat) (data : List α)
    (bs : Nat) (hs : 0 < ws.sum) (hbs : 0 < bs) :
    IsValidPartition data (largest_remainder_method data.length ws)
      (assign_chunk ws data)
    ∧ (∃ res, assign_block_interleaved ws data bs = PyResult.ok res
        ∧ IsValidPartition data (largest_remainder_method data.length ws) res)
    ∧ (∃ res, assign_gcd_interleaved ws data = PyResult.ok res
        ∧ IsValidPartition data (largest_remainder_method data.length ws) res) :=
  ⟨assign_chunk_partition ws data hs,
   assign_block_interleaved_partition ws data bs hs hbs,
   assign_gcd_interleaved_partition ws data hs⟩

theorem partition_invariant_witness :
    0 < ([2, 1] : List Nat).sum ∧ (0 : Nat) < 1
    ∧ (IsValidPartition [10, 20, 30]
        (largest_remainder_method ([10, 20, 30] : List Nat).length [2, 1])
        (assign_chunk [2, 1] [10, 20, 30])
      ∧ (∃ res, assign_block_interleaved [2, 1] [10, 20, 30] 1 = PyResult.ok res
          ∧ IsValidPartition [10, 20, 30]
            (largest_remainder_method ([10, 20, 30] : List Nat).length [2, 1]) res)
      ∧ (∃ res, assign_gcd_interleaved [2, 1] [10, 20, 30] = PyResult.ok res
          ∧ IsValidPartition [10, 20, 30]
            (largest_remainder_method ([10, 20, 30] : List Nat).length [2, 1]) res)) :=
  ⟨by decide, by decide, partition_invariant [2, 1] [10, 20, 30] 1 (by decide) (by decide)⟩

/-! ### Divergence of the block-interleaved loop on all-zero quotas -/

theorem biVisit_noop {α : Type} (bs : Nat) (data : List α) (counts : List Nat)
    (st : BIState α) (k : Nat) (h : counts.getD k 0 = 0) :
    biVisit bs data counts st k = st := by
  unfold biVisit
  rw [if_neg]
  intro hguard
  rw [h] at hguard
  simp at hguard

theorem biSweep_noop {α : Type} (bs : Nat) (data : List α) (counts : List Nat)
    (h : ∀ k, counts.getD k 0 = 0) :
    ∀ (ks : List Nat) (st : BIState α), biSweep bs data counts ks st = st
  | [], st => rfl
  | k :: ks, st => by
    show biSweep bs data counts ks (biVisit bs data counts st k) = st
    rw [biVisit_noop bs data counts st k (h k)]
    exact biSweep_noop bs data counts h ks st

theorem biLoop_none {α : Type} (bs : Nat) (data : List α) (counts : List Nat)
    (h : ∀ k, counts.getD k 0 = 0) :
    ∀ (fuel : Nat) (st : BIState α), st.idx < data.length →
      biLoop bs data counts fuel st = none
  | 0, st, hidx => by simp [biLoop, hidx]
  | fuel + 1, st, hidx => by
    show (if st.idx < data.length then _ else _) = none
    rw [if_pos hidx, biSweep_noop bs data counts h]
    exact biLoop_none bs data counts h fuel st hidx

/-- Claim C9, counterexample: with the all-zero weight map `[0]` and the
non-empty input `[42]`, the block_interleaved call neither returns nor
raises: the quota list is all-zero, so one full sweep of the while loop is
the identity on the loop state while `data_idx < total` keeps holding — the
Python loop runs forever. -/
theorem termination_cex :
    wga_assign [0] [(42 : Nat)] "block_interleaved" 1 = PyResult.diverge
    ∧ biSweep 1 [(42 : Nat)] (largest_remainder_method 1 [0]) (List.range 1)
        (biInit [0]) = biInit [0]
    ∧ (biInit [0] : BIState Nat).idx < ([(42 : Nat)] : List Nat).length := by
  decide

/-- Claim C9, amended: every call with a positive total weight (and any mode
string and block size) terminates — it returns a mapping or raises — and the
same holds for any weight map when the data is empty or the mode is not
block_interleaved; but block_interleaved with an all-zero weight map and
non-empty data loops forever (the loop state is provably stuck for every
fuel bound). -/
theorem termination_amended {α : Type} :
    (∀ (ws : List Nat) (data : List α) (mode : String) (bs : Nat),
      0 < ws.sum → 0 < bs → wga_assign ws data mode bs ≠ PyResult.diverge)
    ∧ (∀ (ws : List Nat) (data : List α) (bs fuel : Nat), ws.sum = 0 →
        0 < data.length →
        biLoop bs data (largest_remainder_method data.length ws) fuel (biInit ws)
          = none) := by
  constructor
  · intro ws data mode bs hs hbs
    unfold wga_assign
    by_cases hempty : ws.length = 0 ∨ data.length = 0
    · rw [if_pos hempty]
      simp
    · rw [if_neg hempty]
      by_cases hm1 : mode = "chunk"
      · rw [if_pos hm1]
        simp
      · rw [if_neg hm1]
        by_cases hm2 : mode = "block_interleaved"
        · rw [if_pos hm2]
          rcases assign_block_interleaved_partition ws data bs hs hbs with ⟨res, hres, _⟩
          rw [hres]
          simp
        · rw [if_neg hm2]
          by_cases hm3 : mode = "gcd_interleaved"
          · rw [if_pos hm3]
            rcases assign_gcd_interleaved_partition ws data hs with ⟨res, hres, _⟩
            rw [hres]
            simp
          · rw [if_neg hm3]
            simp
  · intro ws data bs fuel hs hdata
    apply biLoop_none
    · intro k
      rw [lrm_zero data.length ws (Or.inl hs)]
      exact getD_map_const ws 0 k
    · simpa [biInit] using hdata

theorem termination_amended_witness :
    (0 < ([1] : List Nat).sum ∧ (0 : Nat) < 1
      ∧ wga_assign [1] [(5 : Nat)] "chunk" 1 ≠ PyResult.diverge)
    ∧ (([0] : List Nat).sum = 0 ∧ 0 < ([(42 : Nat)] : List Nat).length
      ∧ biLoop 1 [(42 : Nat)]
          (largest_remainder_method ([(42 : Nat)] : List Nat).length [0]) 7
          (biInit [0]) = none) :=
  ⟨⟨by decide, by decide,
    (termination_amended (α := Nat)).1 [1] [5] "chunk" 1 (by decide) (by decide)⟩,
   ⟨by decide, by decide,
    (termination_amended (α := Nat)).2 [0] [42] 1 7 (by decide) (by decide)⟩⟩

/-! ### Prefix sums of the count list and the single-sweep characterization -/

/-- Sum of the first `k` per-group counts (the chunk start offset of group `k`). -/
def sumTo (counts : List Nat) (k : Nat) : Nat :=
  ((List.range k).map fun j => counts.getD j 0).sum

theorem sumTo_zero (counts : List Nat) : sumTo counts 0 = 0 := rfl

theorem sumTo_succ (counts : List Nat) (k : Nat) :
    sumTo counts (k + 1) = sumTo counts k + counts.getD k 0 := by
  unfold sumTo
  rw [List.range_succ, List.map_append, List.sum_append]
  simp

theorem sumTo_cons (c : Nat) (cs : List Nat) :
    ∀ k, sumTo (c :: cs) (k + 1) = c + sumTo cs k
  | 0 => by
    rw [sumTo_succ, sumTo_zero, sumTo_zero, List.getD_cons_zero]
    omega
  | k + 1 => by
    rw [sumTo_succ, sumTo_cons c cs k, sumTo_succ, List.getD_cons_succ]
    omega

theorem sumTo_full (counts : List Nat) : sumTo counts counts.length = counts.sum := by
  unfold sumTo
  exact (congrArg List.sum (list_eq_range_map_getD counts 0)).symm

theorem sumTo_take (counts : List Nat) (k : Nat) (hk : k ≤ counts.length) :
    sumTo counts k = (counts.take k).sum := by
  unfold sumTo
  congr 1
  apply List.ext_getElem
  · simp
    omega
  · intro j h1 h2
    rw [List.getElem_map, List.getElem_range, List.getElem_take]
    have hj : j < counts.length := by
      rw [List.length_take] at h2
      omega
    rw [List.getD_eq_getElem counts 0 hj]

theorem sumTo_le_sum (counts : List Nat) (k : Nat) (hk : k ≤ counts.length) :
    sumTo counts k ≤ counts.sum := by
  rw [sumTo_take counts k hk]
  have := List.sum_take_add_sum_drop counts k
  omega

theorem sumTo_add_getD_le (counts : List Nat) (k : Nat) (hk : k < counts.length) :
    sumTo counts k + counts.getD k 0 ≤ counts.sum := by
  rw [← sumTo_succ]
  exact sumTo_le_sum counts (k + 1) (by omega)

theorem assign_chunk_go_length {α : Type} (data : List α) :
    ∀ (cs : List Nat) (idx : Nat), (assign_chunk_go data idx cs).length = cs.length
  | [], _ => rfl
  | c :: cs, idx => by
    show (assign_chunk_go data (idx + c) cs).length + 1 = cs.length + 1
    rw [assign_chunk_go_length data cs (idx + c)]

theorem assign_chunk_go_getD {α : Type} (data : List α) :
    ∀ (cs : List Nat) (idx k : Nat), k < cs.length →
      (assign_chunk_go data idx cs).getD k []
        = (data.drop (idx + sumTo cs k)).take (cs.getD k 0)
  | [], idx, k, h => by simp at h
  | c :: cs, idx, 0, _ => by
    show (data.drop idx).take c = (data.drop (idx + sumTo (c :: cs) 0)).take c
    rw [sumTo_zero, Nat.add_zero]
  | c :: cs, idx, k + 1, h => by
    show (assign_chunk_go data (idx + c) cs).getD k []
      = (data.drop (idx + sumTo (c :: cs) (k + 1))).take ((c :: cs).getD (k + 1) 0)
    rw [assign_chunk_go_getD data cs (idx + c) k (by simpa using Nat.lt_of_succ_lt_succ h),
      sumTo_cons, List.getD_cons_succ, ← Nat.add_assoc]

theorem assign_chunk_go_nil_data {α : Type} :
    ∀ (cs : List Nat) (idx : Nat),
      assign_chunk_go ([] : List α) idx cs = cs.map fun _ => []
  | [], _ => rfl
  | c :: cs, idx => by
    show ((List.drop idx ([] : List α)).take c)
        :: assign_chunk_go ([] : List α) (idx + c) cs = [] :: cs.map fun _ => []
    rw [assign_chunk_go_nil_data cs (idx + c)]
    simp

theorem biSweep_cons_eq {α : Type} (bs : Nat) (data : List α) (counts : List Nat)
    (k : Nat) (ks : List Nat) (st : BIState α) :
    biSweep bs data counts (k :: ks) st
      = biSweep bs data counts ks (biVisit bs data counts st k) := rfl

/-- When the block size covers the whole remaining quota of every group, a
single sweep hands each group its entire contiguous chunk. -/
theorem biSweep_full {α : Type} (bs : Nat) (data : List α) (counts : List Nat)
    (hbs : counts.sum ≤ bs) (hcsle : counts.sum ≤ data.length) :
    ∀ (c m : Nat) (st : BIState α),
      m + c = counts.length →
      st.res.length = counts.length →
      st.tc.length = counts.length →
      (∀ k, m ≤ k → st.tc.getD k 0 = 0) →
      (∀ k, m ≤ k → st.res.getD k [] = []) →
      st.idx = sumTo counts m →
      (biSweep bs data counts (List.range' m c) st).idx = sumTo counts (m + c)
      ∧ (biSweep bs data counts (List.range' m c) st).res.length = counts.length
      ∧ (∀ k, k < m → (biSweep bs data counts (List.range' m c) st).res.getD k []
          = st.res.getD k [])
      ∧ (∀ k, m ≤ k → k < counts.length →
          (biSweep bs data counts (List.range' m c) st).res.getD k []
            = (data.drop (sumTo counts k)).take (counts.getD k 0))
  | 0, m, st, hmc, hres, htc, htc0, hres0, hidx => by
    refine ⟨?_, hres, fun k _ => rfl, fun k h1 h2 => by omega⟩
    rw [Nat.add_zero]
    exact hidx
  | c + 1, m, st, hmc, hres, htc, htc0, hres0, hidx => by
    have hcons : List.range' m (c + 1) = m :: List.range' (m + 1) c := rfl
    rw [hcons, biSweep_cons_eq]
    have hm : m < counts.length := by omega
    by_cases hc0 : counts.getD m 0 = 0
    · rw [biVisit_noop bs data counts st m hc0]
      have hrec := biSweep_full bs data counts hbs hcsle c (m + 1) st
        (by omega) hres htc (fun k hk => htc0 k (by omega))
        (fun k hk => hres0 k (by omega))
        (by rw [sumTo_succ, hc0, Nat.add_zero]; exact hidx)
      have harith : m + 1 + c = m + (c + 1) := by omega
      rw [harith] at hrec
      refine ⟨hrec.1, hrec.2.1, ?_, ?_⟩
      · intro k hk
        exact hrec.2.2.1 k (by omega)
      · intro k hk1 hk2
        by_cases hkm : k = m
        · subst hkm
          rw [hrec.2.2.1 k (by omega), hres0 k (le_refl _), hc0, List.take_zero]
        · exact hrec.2.2.2 k (by omega) hk2
    · have htcm : st.tc.getD m 0 = 0 := htc0 m (le_refl m)
      have hresm : st.res.getD m [] = [] := hres0 m (le_refl m)
      have hcm_le : counts.getD m 0 ≤ bs := le_trans (getD_le_sum counts m) hbs
      have hmin : min bs (counts.getD m 0 - st.tc.getD m 0) = counts.getD m 0 := by
        rw [htcm]
        omega
      have hsumm := sumTo_add_getD_le counts m hm
      have hguard : 0 < min bs (counts.getD m 0 - st.tc.getD m 0)
          ∧ st.idx < data.length := by
        constructor
        · rw [hmin]
          omega
        · omega
      have hvis : biVisit bs data counts st m
          = ⟨st.res.set m ((data.drop st.idx).take (counts.getD m 0)),
             st.tc.set m (counts.getD m 0), st.idx + counts.getD m 0⟩ := by
        unfold biVisit
        rw [if_pos hguard, hmin, htcm, hresm]
        rw [List.nil_append, Nat.zero_add]
      rw [hvis]
      have hmres : m < st.res.length := by rw [hres]; exact hm
      have hmtc : m < st.tc.length := by rw [htc]; exact hm
      have hrec := biSweep_full bs data counts hbs hcsle c (m + 1)
        ⟨st.res.set m ((data.drop st.idx).take (counts.getD m 0)),
          st.tc.set m (counts.getD m 0), st.idx + counts.getD m 0⟩
        (by omega)
        (by rw [List.length_set]; exact hres)
        (by rw [List.length_set]; exact htc)
        (fun k hk => by
          show (st.tc.set m (counts.getD m 0)).getD k 0 = 0
          rw [getD_set_ne _ _ _ (by omega)]
          exact htc0 k (by omega))
        (fun k hk => by
          show (st.res.set m ((data.drop st.idx).take (counts.getD m 0))).getD k [] = []
          rw [getD_set_ne _ _ _ (by omega)]
          exact hres0 k (by omega))
        (by
          show st.idx + counts.getD m 0 = sumTo counts (m + 1)
          rw [sumTo_succ, hidx])
      have harith : m + 1 + c = m + (c + 1) := by omega
      rw [harith] at hrec
      refine ⟨hrec.1, hrec.2.1, ?_, ?_⟩
      · intro k hk
        rw [hrec.2.2.1 k (by omega)]
        show (st.res.set m _).getD k [] = st.res.getD k []
        rw [getD_set_ne _ _ _ (by omega)]
      · intro k hk1 hk2
        by_cases hkm : k = m
        · subst hkm
          rw [hrec.2.2.1 k (by omega)]
          show (st.res.set k _).getD k [] = _
          rw [getD_set_eq _ _ _ _ hmres, hidx]
        · exact hrec.2.2.2 k (by omega) hk2

theorem biLoop_succ_eq {α : Type} (bs : Nat) (data : List α) (counts : List Nat)
    (fuel : Nat) (st : BIState α) :
    biLoop bs data counts (fuel + 1) st
      = if st.idx < data.length then
          biLoop bs data counts fuel
            (biSweep bs data counts (List.range counts.length) st)
        else some st := rfl

theorem map_map_const {β γ δ : Type} (l : List β) (f : β → γ) (c : δ) :
    (l.map f).map (fun _ => c) = l.map fun _ => c := by
  rw [List.map_map]
  rfl

/-- Claim C7, counterexample: with the all-zero weight map `[0]` and the
one-element input, `block_size = 1 ≥ len(data)` holds, yet block_interleaved
loops forever while chunk returns, so the two policies do not agree on every
weight map. -/
theorem block_eq_chunk_cex :
    ([(7 : Nat)] : List Nat).length ≤ 1
    ∧ assign_block_interleaved [0] [(7 : Nat)] 1 = PyResult.diverge
    ∧ assign_block_interleaved [0] [(7 : Nat)] 1
        ≠ PyResult.ok (assign_chunk [0] [(7 : Nat)]) := by
  decide

/-- Claim C7, amended: whenever the total weight is positive (or the input is
empty) and the block size is at least the input length, block_interleaved
returns exactly the chunk mapping: the very first sweep hands every group its
whole contiguous quota block. -/
theorem block_eq_chunk_amended {α : Type} (ws : List Nat) (data : List α)
    (bs : Nat) (h : 0 < ws.sum ∨ data = []) (hbs : data.length ≤ bs) :
    assign_block_interleaved ws data bs = PyResult.ok (assign_chunk ws data) := by
  by_cases hdata : data = []
  · subst hdata
    unfold assign_block_interleaved
    have hstop : biLoop bs ([] : List α) (largest_remainder_method 0 ws) (0 + 1)
        (biInit ws) = some (biInit ws) := by
      apply biLoop_stop
      simp [biInit]
    simp only [List.length_nil] at hstop ⊢
    rw [hstop]
    unfold assign_chunk
    rw [List.length_nil, assign_chunk_go_nil_data]
    unfold biInit
    rw [lrm_zero 0 ws (Or.inr rfl), map_map_const]
  · have hs : 0 < ws.sum := by
      rcases h with hs | hd
      · exact hs
      · exact absurd hd hdata
    have hlen : 0 < data.length := by
      cases data with
      | nil => exact absurd rfl hdata
      | cons x xs => simp
    have hcs : (largest_remainder_method data.length ws).sum = data.length :=
      lrm_sum data.length ws hs
    have hclen : (largest_remainder_method data.length ws).length = ws.length :=
      lrm_length data.length ws
    have hsweep := biSweep_full bs data (largest_remainder_method data.length ws)
      (by omega) (by omega) (largest_remainder_method data.length ws).length 0
      (biInit ws)
      (by omega)
      (by simp [biInit, hclen])
      (by simp [biInit, hclen])
      (fun k _ => by simp only [biInit]; exact getD_map_const ws 0 k)
      (fun k _ => by simp only [biInit]; exact getD_map_const ws [] k)
      rfl
    rw [Nat.zero_add] at hsweep
    have hfuel : data.length + 1 = data.length + 1 := rfl
    unfold assign_block_interleaved
    have hstep : biLoop bs data (largest_remainder_method data.length ws)
        (data.length + 1) (biInit ws)
        = biLoop bs data (largest_remainder_method data.length ws) data.length
          (biSweep bs data (largest_remainder_method data.length ws)
            (List.range (largest_remainder_method data.length ws).length)
            (biInit ws)) := by
      rw [biLoop_succ_eq]
      rw [if_pos (by simp [biInit]; omega)]
    simp only [hstep]
    rw [List.range_eq_range']
    have hstop : biLoop bs data (largest_remainder_method data.length ws) data.length
        (biSweep bs data (largest_remainder_method data.length ws)
          (List.range' 0 (largest_remainder_method data.length ws).length)
          (biInit ws))
        = some (biSweep bs data (largest_remainder_method data.length ws)
          (List.range' 0 (largest_remainder_method data.length ws).length)
          (biInit ws)) := by
      apply biLoop_stop
      rw [hsweep.1, sumTo_full, hcs]
      omega
    rw [hstop]
    show PyResult.ok (biSweep bs data (largest_remainder_method data.length ws)
        (List.range' 0 (largest_remainder_method data.length ws).length)
        (biInit ws)).res
      = PyResult.ok (assign_chunk ws data)
    congr 1
    apply List.ext_getElem
    · rw [hsweep.2.1]
      unfold assign_chunk
      rw [assign_chunk_go_length]
    · intro j h1 h2
      have hj : j < (largest_remainder_method data.length ws).length := by
        rw [hsweep.2.1] at h1
        exact h1
      have hchunkj : j < (assign_chunk ws data).length := h2
      rw [← List.getD_eq_getElem _ ([] : List α) h1,
        ← List.getD_eq_getElem _ ([] : List α) h2]
      rw [hsweep.2.2.2 j (by omega) hj]
      unfold assign_chunk
      rw [assign_chunk_go_getD data _ 0 j hj, Nat.zero_add]

theorem block_eq_chunk_amended_witness :
    (0 < ([2, 1] : List Nat).sum ∨ ([10, 20, 30] : List Nat) = [])
    ∧ ([10, 20, 30] : List Nat).length ≤ 3
    ∧ assign_block_interleaved [2, 1] [10, 20, 30] 3
        = PyResult.ok (assign_chunk [2, 1] [10, 20, 30]) :=
  ⟨Or.inl (by decide), by decide,
    block_eq_chunk_amended [2, 1] [10, 20, 30] 3 (Or.inl (by decide)) (by decide)⟩

/-! ## The weighted data distributor

Embedding of `weighted_data_distributor.py`.  Group keys are again the
positions of the weight list. -/

/-- The full-round loop of `distribute_by_weights` (lines 82-86):
`take = weight * full_round; result[key].extend(data[index:index+take])`,
threading `index`. -/
def drGo {α : Type} (data : List α) (fr : Nat) : List Nat → Nat → List (List α) × Nat
  | [], idx => ([], idx)
  | w :: rest, idx =>
      (((data.drop idx).take (w * fr)) :: (drGo data fr rest (idx + w * fr)).1,
       (drGo data fr rest (idx + w * fr)).2)

/-- One `for key in keys` pass of `_allocate_remainder_round_robin`
(lines 126-135): append one item per key while data remains, else break.
Also models the identical while/for structure at the end of
`_allocate_remainder_proportional` (lines 117-123), which runs over the
fraction-sorted key order. -/
def rrSweep {α : Type} (data : List α) : List Nat → List (List α) → Nat → List (List α) × Nat
  | [], res, idx => (res, idx)
  | k :: ks, res, idx =>
      if idx < data.length then
        rrSweep data ks (res.set k (res.getD k [] ++ (data.drop idx).take 1)) (idx + 1)
      else (res, idx)

/-- The `while index < len(data)` loop around `rrSweep`, with fuel. -/
def rrLoop {α : Type} (data : List α) (keys : List Nat) :
    Nat → List (List α) → Nat → Option (List (List α))
  | 0, res, idx => if idx < data.length then none else some res
  | fuel + 1, res, idx =>
      if idx < data.length then
        rrLoop data keys fuel (rrSweep data keys res idx).1 (rrSweep data keys res idx).2
      else some res

/-- The inner `while remainder > 0 and index < len(data)` loop of
`_allocate_remainder_sequential` (lines 141-144), structurally recursive on
the remainder; returns (result, remaining, index). -/
def sfWhile {α : Type} (data : List α) (k : Nat) :
    Nat → Nat → List (List α) → List (List α) × Nat × Nat
  | 0, idx, res => (res, 0, idx)
  | rem + 1, idx, res =>
      if idx < data.length then
        sfWhile data k rem (idx + 1) (res.set k (res.getD k [] ++ (data.drop idx).take 1))
      else (res, rem + 1, idx)

/-- The outer `for key in keys` loop of `_allocate_remainder_sequential`
(lines 140-146), with the `if remainder == 0: break` early exit. -/
def sfFill {α : Type} (data : List α) : List Nat → Nat → Nat → List (List α) → List (List α)
  | [], _, _, res => res
  | k :: ks, rem, idx, res =>
      if (sfWhile data k rem idx res).2.1 = 0 then (sfWhile data k rem idx res).1
      else sfFill data ks (sfWhile data k rem idx res).2.1
        (sfWhile data k rem idx res).2.2 (sfWhile data k rem idx res).1

/-- Integer parts `int(share)` of the proportional shares
`(weight / total_weight) * remainder` (line 107), with exact rational
arithmetic and `int` as the floor of the non-negative share. -/
def propIparts (ws : List Nat) (tw rem : Nat) : List Nat :=
  ws.map fun w : Nat => ⌊(w : ℚ) / (tw : ℚ) * (rem : ℚ)⌋₊

/-- Fractional parts `share - int(share)` of the proportional shares. -/
def propFracs (ws : List Nat) (tw rem : Nat) : List ℚ :=
  ws.map fun w : Nat => (w : ℚ) / (tw : ℚ) * (rem : ℚ)
    - (⌊(w : ℚ) / (tw : ℚ) * (rem : ℚ)⌋₊ : ℚ)

/-- The integer-part allocation loop of `_allocate_remainder_proportional`
(lines 110-113). -/
def propInts {α : Type} (data : List α) (iparts : List Nat) :
    List Nat → Nat → List (List α) → List (List α) × Nat
  | [], idx, res => (res, idx)
  | k :: ks, idx, res =>
      if 0 < iparts.getD k 0 then
        propInts data iparts ks (idx + iparts.getD k 0)
          (res.set k (res.getD k [] ++ (data.drop idx).take (iparts.getD k 0)))
      else propInts data iparts ks idx res

/-- `sorted(quotas.keys(), key=lambda k: quotas[k][1], reverse=True)`
(line 116): Python's stable sort by descending fractional part, i.e. the
total order `sortKeyLE` on the fraction list. -/
def propOrder (ws : List Nat) (tw rem : Nat) : List Nat :=
  List.insertionSort (sortKeyLE (propFracs ws tw rem) 0) (List.range ws.length)

/-- The (result, index) state of `_allocate_remainder_proportional` after
the full rounds and the integer-part loop (lines 79-113). -/
def propState {α : Type} (data : List α) (ws : List Nat) : List (List α) × Nat :=
  propInts data (propIparts ws ws.sum (data.length % ws.sum))
    (List.range ws.length)
    (drGo data (data.length / ws.sum) ws 0).2
    (drGo data (data.length / ws.sum) ws 0).1

/-- `distribute_by_weights(data, weights, strategy)` (lines 53-99).
`divmod(num_items, 0)` raises `ZeroDivisionError` in Python; an unknown
strategy raises `ValueError`, but only when a remainder is left after the
full rounds. -/
def distribute_by_weights {α : Type} (data : List α) (ws : List Nat)
    (strategy : String) : PyResult α :=
  if data.isEmpty then .ok (ws.map fun _ => [])
  else if ws.sum = 0 then .exn "ZeroDivisionError"
  else if 0 < data.length % ws.sum then
    if strategy = "proportional" then
      match rrLoop data (propOrder ws ws.sum (data.length % ws.sum)) (data.length + 1)
          (propState data ws).1 (propState data ws).2 with
      | some r => .ok r
      | none => .diverge
    else if strategy = "round_robin" then
      match rrLoop data (List.range ws.length) (data.length + 1)
          (drGo data (data.length / ws.sum) ws 0).1
          (drGo data (data.length / ws.sum) ws 0).2 with
      | some r => .ok r
      | none => .diverge
    else if strategy = "sequential_fill" then
      .ok (sfFill data (List.range ws.length) (data.length % ws.sum)
        (drGo data (data.length / ws.sum) ws 0).2
        (drGo data (data.length / ws.sum) ws 0).1)
    else .exn "ValueError: unknown strategy"
  else .ok (drGo data (data.length / ws.sum) ws 0).1

/-- Claim C10: validation is bypassed when the policy is never consulted.
`WeightedGroupAssigner.assign` returns the all-empty mapping for any mode
string (valid or not) when the weights dict or the data list is empty; and
`distribute_by_weights` raises for an unknown strategy only when the data is
non-empty and its length is not an exact multiple of the total weight
(`divmod` raising `ZeroDivisionError` when the total weight is 0), returning
the plain full-round allocation otherwise. -/
theorem validation_bypass :
    (∀ (ws : List Nat) (data : List Nat) (mode : String) (bs : Nat),
      ws.length = 0 ∨ data.length = 0 →
      wga_assign ws data mode bs = PyResult.ok (ws.map fun _ => []))
    ∧ (∀ (data : List Nat) (ws : List Nat) (strategy : String),
        strategy ≠ "proportional" → strategy ≠ "round_robin" →
        strategy ≠ "sequential_fill" →
        (data = [] → distribute_by_weights data ws strategy
            = PyResult.ok (ws.map fun _ => []))
        ∧ (data ≠ [] → ws.sum = 0 →
            distribute_by_weights data ws strategy = PyResult.exn "ZeroDivisionError")
        ∧ (data ≠ [] → 0 < ws.sum → 0 < data.length % ws.sum →
            distribute_by_weights data ws strategy
              = PyResult.exn "ValueError: unknown strategy")
        ∧ (data ≠ [] → 0 < ws.sum → data.length % ws.sum = 0 →
            distribute_by_weights data ws strategy
              = PyResult.ok (drGo data (data.length / ws.sum) ws 0).1)) := by
  constructor
  · intro ws data mode bs h
    unfold wga_assign
    rw [if_pos h]
  · intro data ws strategy h1 h2 h3
    refine ⟨?_, ?_, ?_, ?_⟩
    · intro hd
      subst hd
      simp [distribute_by_weights]
    · intro hd hws
      unfold distribute_by_weights
      rw [if_neg (by simpa [List.isEmpty_iff] using hd), if_pos hws]
    · intro hd hws hrem
      unfold distribute_by_weights
      rw [if_neg (by simpa [List.isEmpty_iff] using hd), if_neg (by omega),
        if_pos hrem, if_neg h1, if_neg h2, if_neg h3]
    · intro hd hws hrem
      unfold distribute_by_weights
      rw [if_neg (by simpa [List.isEmpty_iff] using hd), if_neg (by omega),
        if_neg (by omega)]

theorem validation_bypass_witness :
    (([1] : List Nat).length = 0 ∨ ([] : List Nat).length = 0)
    ∧ wga_assign [1] ([] : List Nat) "bogus" 0 = PyResult.ok ([1].map fun _ => [])
    ∧ distribute_by_weights [1, 2, 3] [0, 2] "bogus"
        = PyResult.exn "ValueError: unknown strategy"
    ∧ distribute_by_weights [1, 2, 3, 4] [0, 2] "bogus"
        = PyResult.ok (drGo [1, 2, 3, 4]
            (([1, 2, 3, 4] : List Nat).length / ([0, 2] : List Nat).sum) [0, 2] 0).1 :=
  ⟨Or.inr rfl,
   validation_bypass.1 [1] [] "bogus" 0 (Or.inr rfl),
   (validation_bypass.2 [1, 2, 3] [0, 2] "bogus" (by decide) (by decide)
     (by decide)).2.2.1 (by decide) (by decide) (by decide),
   (validation_bypass.2 [1, 2, 3, 4] [0, 2] "bogus" (by decide) (by decide)
     (by decide)).2.2.2 (by decide) (by decide) (by decide)⟩

/-! ### Divergence of the block-interleaved loop with block size 0 -/

theorem biVisit_noop_bs0 {α : Type} (data : List α) (counts : List Nat)
    (st : BIState α) (k : Nat) : biVisit 0 data counts st k = st := by
  unfold biVisit
  rw [if_neg]
  intro hguard
  rcases hguard with ⟨h, _⟩
  simp [Nat.zero_min] at h

theorem biSweep_noop_bs0 {α : Type} (data : List α) (counts : List Nat) :
    ∀ (ks : List Nat) (st : BIState α), biSweep 0 data counts ks st = st
  | [], st => rfl
  | k :: ks, st => by
    rw [biSweep_cons_eq, biVisit_noop_bs0]
    exact biSweep_noop_bs0 data counts ks st

theorem biLoop_none_bs0 {α : Type} (data : List α) (counts : List Nat) :
    ∀ (fuel : Nat) (st : BIState α), st.idx < data.length →
      biLoop 0 data counts fuel st = none
  | 0, st, hidx => by simp [biLoop, hidx]
  | fuel + 1, st, hidx => by
    rw [biLoop_succ_eq, if_pos hidx, biSweep_noop_bs0]
    exact biLoop_none_bs0 data counts fuel st hidx

/-- Claim C8, counterexample: an invalid mode string with empty data returns
a normal (empty) mapping instead of raising, and a non-positive
`block_size = 0` is not rejected either — the block_interleaved loop is
provably stuck (one sweep is the identity with the data index still in
range), so the call loops forever instead of raising a configuration
error. -/
theorem validation_errors_cex :
    wga_assign [1] ([] : List Nat) "bogus" 1 = PyResult.ok [[]]
    ∧ wga_assign [1] [(42 : Nat)] "block_interleaved" 0 = PyResult.diverge
    ∧ biSweep 0 [(42 : Nat)] (largest_remainder_method 1 [1]) (List.range 1)
        (biInit [1]) = biInit [1]
    ∧ (biInit [1] : BIState Nat).idx < ([(42 : Nat)] : List Nat).length := by
  decide

/-- Claim C8, amended: the only up-front validation is the non-empty-weights
check in `__init__`; `assign` raises `ValueError` for an unknown mode only
when both the weights dict and the data are non-empty (otherwise it returns
the all-empty mapping without raising), and `block_size` is never validated:
with `block_size = 0` and non-empty data the block_interleaved loop never
terminates (for every fuel bound) instead of raising. Weights are never
checked for sign or value. -/
theorem validation_errors_amended {α : Type} :
    (wga_init_check [] = Except.error "ValueError: weights must be a non-empty dict"
      ∧ ∀ ws : List Nat, ws ≠ [] → wga_init_check ws = Except.ok ())
    ∧ (∀ (ws : List Nat) (data : List α) (mode : String) (bs : Nat),
        mode ≠ "chunk" → mode ≠ "block_interleaved" → mode ≠ "gcd_interleaved" →
        (ws.length = 0 ∨ data.length = 0 →
          wga_assign ws data mode bs = PyResult.ok (ws.map fun _ => []))
        ∧ (¬ (ws.length = 0 ∨ data.length = 0) →
          wga_assign ws data mode bs = PyResult.exn "ValueError: invalid mode"))
    ∧ (∀ (data : List α) (counts : List Nat) (fuel : Nat) (st : BIState α),
        st.idx < data.length → biLoop 0 data counts fuel st = none) := by
  refine ⟨⟨rfl, ?_⟩, ?_, ?_⟩
  · intro ws hws
    unfold wga_init_check
    rw [if_neg (by simpa [List.isEmpty_iff] using hws)]
  · intro ws data mode bs h1 h2 h3
    constructor
    · intro h
      unfold wga_assign
      rw [if_pos h]
    · intro h
      unfold wga_assign
      rw [if_neg h, if_neg h1, if_neg h2, if_neg h3]
  · intro data counts fuel st hidx
    exact biLoop_none_bs0 data counts fuel st hidx

theorem validation_errors_amended_witness :
    (([1] : List Nat) ≠ [] ∧ wga_init_check [1] = Except.ok ())
    ∧ (¬ (([1] : List Nat).length = 0 ∨ ([(5 : Nat)] : List Nat).length = 0)
      ∧ wga_assign [1] [(5 : Nat)] "bogus" 1 = PyResult.exn "ValueError: invalid mode")
    ∧ ((biInit [1] : BIState Nat).idx < ([(42 : Nat)] : List Nat).length
      ∧ biLoop 0 [(42 : Nat)] (largest_remainder_method 1 [1]) 9 (biInit [1]) = none) :=
  ⟨⟨by decide, (validation_errors_amended (α := Nat)).1.2 [1] (by decide)⟩,
   ⟨by decide, ((validation_errors_amended (α := Nat)).2.1 [1] [5] "bogus" 1
     (by decide) (by decide) (by decide)).2 (by decide)⟩,
   ⟨by decide, (validation_errors_amended (α := Nat)).2.2 [42]
     (largest_remainder_method 1 [1]) 9 (biInit [1]) (by decide)⟩⟩

/-- Claim C6, counterexample: under the distributor's round_robin and
sequential_fill strategies, the zero-weight group 0 of the weight map
`[0, 2]` receives the remainder item 3 — a zero-weight group does not always
map to an empty subsequence. -/
theorem zero_weight_cex :
    ([0, 2] : List Nat).getD 0 0 = 0
    ∧ distribute_by_weights [1, 2, 3] [0, 2] "round_robin"
        = PyResult.ok [[3], [1, 2]]
    ∧ distribute_by_weights [1, 2, 3] [0, 2] "sequential_fill"
        = PyResult.ok [[3], [1, 2]]
    ∧ ([3] : List Nat) ≠ [] := by
  decide

/-! ### Zero-weight groups under every policy -/

theorem partition_getD_len {α : Type} {data : List α} {counts : List Nat}
    {res : List (List α)} (h : IsValidPartition data counts res) (k : Nat)
    (hk : k < res.length) : (res.getD k []).length = counts.getD k 0 := by
  have h1 := h.1
  rw [← h1, getD_map_of_lt _ _ _ _ (by simpa using hk)]
  rw [List.getD_eq_getElem _ _ hk, List.get_eq_getElem]

theorem drGo_length {α : Type} (data : List α) (fr : Nat) :
    ∀ (ws : List Nat) (idx : Nat), (drGo data fr ws idx).1.length = ws.length
  | [], _ => rfl
  | w :: rest, idx => by
    show (drGo data fr rest (idx + w * fr)).1.length + 1 = rest.length + 1
    rw [drGo_length data fr rest (idx + w * fr)]

theorem drGo_idx {α : Type} (data : List α) (fr : Nat) :
    ∀ (ws : List Nat) (idx : Nat), (drGo data fr ws idx).2 = idx + ws.sum * fr
  | [], idx => by
    show idx = idx + ([] : List Nat).sum * fr
    simp
  | w :: rest, idx => by
    show (drGo data fr rest (idx + w * fr)).2 = idx + (w :: rest).sum * fr
    rw [drGo_idx data fr rest (idx + w * fr), List.sum_cons, Nat.add_mul]
    omega

theorem drGo_getD_zero {α : Type} (data : List α) (fr : Nat) :
    ∀ (ws : List Nat) (idx k : Nat), k < ws.length → ws.getD k 0 = 0 →
      (drGo data fr ws idx).1.getD k [] = []
  | [], _, k, hk, _ => by simp at hk
  | w :: rest, idx, 0, _, hw => by
    show (data.drop idx).take (w * fr) = []
    rw [List.getD_cons_zero] at hw
    rw [hw, Nat.zero_mul, List.take_zero]
  | w :: rest, idx, k + 1, hk, hw => by
    show (drGo data fr rest (idx + w * fr)).1.getD k [] = []
    rw [List.getD_cons_succ] at hw
    exact drGo_getD_zero data fr rest (idx + w * fr) k
      (by simpa using Nat.lt_of_succ_lt_succ hk) hw

theorem propInts_length {α : Type} (data : List α) (iparts : List Nat) :
    ∀ (keys : List Nat) (idx : Nat) (res : List (List α)),
      (propInts data iparts keys idx res).1.length = res.length
  | [], _, _ => rfl
  | j :: ks, idx, res => by
    show (propInts data iparts (j :: ks) idx res).1.length = res.length
    unfold propInts
    by_cases h : 0 < iparts.getD j 0
    · rw [if_pos h, propInts_length data iparts ks _ _, List.length_set]
    · rw [if_neg h]
      exact propInts_length data iparts ks idx res

theorem propInts_idx {α : Type} (data : List α) (iparts : List Nat) :
    ∀ (keys : List Nat) (idx : Nat) (res : List (List α)),
      (propInts data iparts keys idx res).2
        = idx + (keys.map fun j => iparts.getD j 0).sum
  | [], idx, _ => by simp [propInts]
  | j :: ks, idx, res => by
    unfold propInts
    by_cases h : 0 < iparts.getD j 0
    · rw [if_pos h, propInts_idx data iparts ks _ _]
      simp only [List.map_cons, List.sum_cons]
      omega
    · rw [if_neg h, propInts_idx data iparts ks _ _]
      simp only [List.map_cons, List.sum_cons]
      omega

theorem propInts_getD_zero {α : Type} (data : List α) (iparts : List Nat)
    {k : Nat} (hk : iparts.getD k 0 = 0) :
    ∀ (keys : List Nat) (idx : Nat) (res : List (List α)),
      (propInts data iparts keys idx res).1.getD k [] = res.getD k []
  | [], _, _ => rfl
  | j :: ks, idx, res => by
    unfold propInts
    by_cases h : 0 < iparts.getD j 0
    · rw [if_pos h, propInts_getD_zero data iparts hk ks _ _]
      exact getD_set_ne _ _ _ (fun hjk => by rw [hjk, hk] at h; omega)
    · rw [if_neg h]
      exact propInts_getD_zero data iparts hk ks idx res

theorem rrSweep_partial {α : Type} (data : List α) :
    ∀ (keys : List Nat) (res : List (List α)) (idx : Nat),
      idx ≤ data.length → data.length - idx ≤ keys.length →
      (rrSweep data keys res idx).2 = data.length
      ∧ (rrSweep data keys res idx).1.length = res.length
      ∧ ∀ k, k ∉ keys.take (data.length - idx) →
          (rrSweep data keys res idx).1.getD k [] = res.getD k []
  | [], res, idx, hle, hcov => by
    have : idx = data.length := by simp at hcov; omega
    subst this
    exact ⟨rfl, rfl, fun k _ => rfl⟩
  | j :: ks, res, idx, hle, hcov => by
    unfold rrSweep
    by_cases h : idx < data.length
    · rw [if_pos h]
      have hrec := rrSweep_partial data ks
        (res.set j (res.getD j [] ++ (data.drop idx).take 1)) (idx + 1)
        (by omega) (by simp at hcov ⊢; omega)
      refine ⟨hrec.1, by rw [hrec.2.1, List.length_set], ?_⟩
      intro k hk
      have hsplit : data.length - idx = (data.length - (idx + 1)) + 1 := by omega
      rw [hsplit, List.take_succ_cons] at hk
      have hkj : k ≠ j := fun hkj => hk (hkj ▸ List.mem_cons_self _ _)
      have hk2 : k ∉ ks.take (data.length - (idx + 1)) :=
        fun hmem => hk (List.mem_cons_of_mem _ hmem)
      rw [hrec.2.2 k hk2]
      exact getD_set_ne _ _ _ (fun hjk => hkj hjk.symm)
    · rw [if_neg h]
      have : idx = data.length := by omega
      subst this
      exact ⟨rfl, rfl, fun k _ => rfl⟩

theorem rrLoop_stop {α : Type} (data : List α) (keys : List Nat) (fuel : Nat)
    (res : List (List α)) (idx : Nat) (h : ¬ idx < data.length) :
    rrLoop data keys fuel res idx = some res := by
  cases fuel with
  | zero => simp [rrLoop, h]
  | succ fuel => simp [rrLoop, h]

theorem rrLoop_run {α : Type} (data : List α) (keys : List Nat)
    (fuel : Nat) (res : List (List α)) (idx : Nat) (hfuel : 0 < fuel)
    (hle : idx ≤ data.length) (hcov : data.length - idx ≤ keys.length) :
    ∃ r, rrLoop data keys fuel res idx = some r ∧ r.length = res.length
      ∧ ∀ k, k ∉ keys.take (data.length - idx) → r.getD k [] = res.getD k [] := by
  cases fuel with
  | zero => omega
  | succ fuel =>
    by_cases h : idx < data.length
    · have hsw := rrSweep_partial data keys res idx hle hcov
      refine ⟨(rrSweep data keys res idx).1, ?_, hsw.2.1, hsw.2.2⟩
      show (if idx < data.length then _ else _) = _
      rw [if_pos h]
      apply rrLoop_stop
      rw [hsw.1]
      omega
    · refine ⟨res, rrLoop_stop data keys _ res idx h, rfl, fun k _ => rfl⟩

theorem sum_map_add_rat {κ : Type} (l : List κ) (f g : κ → ℚ) :
    (l.map fun k => f k + g k).sum = (l.map f).sum + (l.map g).sum := by
  induction l with
  | nil => simp
  | cons x xs ih =>
    simp only [List.map_cons, List.sum_cons, ih]
    ring

theorem sum_map_le_countPos_rat (f : Nat → ℚ) :
    ∀ (ks : List Nat), (∀ j ∈ ks, 0 ≤ f j) → (∀ j ∈ ks, f j < 1) →
      (ks.map f).sum ≤ ((ks.filter fun j => decide (0 < f j)).length : ℚ)
  | [], _, _ => by simp
  | j :: ks, h0, h1 => by
    have ih := sum_map_le_countPos_rat f ks
      (fun x hx => h0 x (List.mem_cons_of_mem _ hx))
      (fun x hx => h1 x (List.mem_cons_of_mem _ hx))
    by_cases hj : 0 < f j
    · simp only [List.map_cons, List.sum_cons, List.filter_cons]
      rw [if_pos (by simpa using hj)]
      have hfj := h1 j (List.mem_cons_self _ _)
      simp only [List.length_cons]
      push_cast
      linarith
    · have hj0 : f j = 0 :=
        le_antisymm (not_lt.mp hj) (h0 j (List.mem_cons_self _ _))
      simp only [List.map_cons, List.sum_cons, List.filter_cons]
      rw [if_neg (by simpa using hj), hj0]
      linarith

/-- In a list sorted by `sortKeyLE vals d`, if `k` is among the first `t`
entries then strictly fewer than `t` positions have a value strictly greater
than that of `k`. -/
theorem take_count_lt {β : Type} [LinearOrder β] (vals : List β) (d : β)
    (L : List Nat) (n t k : Nat) (hsorted : List.Sorted (sortKeyLE vals d) L)
    (hnodup : L.Nodup) (hmem : ∀ i, i ∈ L ↔ i < n) (hk : k ∈ L.take t) :
    ((List.range n).filter fun p => decide (vals.getD k d < vals.getD p d)).length
      < t := by
  set pos := (List.range n).filter fun p => decide (vals.getD k d < vals.getD p d)
    with hposdef
  have hposin : ∀ p ∈ pos, p ∈ L.take t := by
    intro p hp
    have hpn : p < n := List.mem_range.mp (List.mem_of_mem_filter hp)
    have hplt : vals.getD k d < vals.getD p d := by
      simpa using List.of_mem_filter hp
    apply mem_take_of_sorted_rel hsorted hk ((hmem p).mpr hpn)
    intro hr
    rcases hr with hlt | ⟨heq, _⟩
    · exact absurd (hlt.trans hplt) (lt_irrefl _)
    · rw [heq] at hplt
      exact absurd hplt (lt_irrefl _)
  have hknot : k ∉ pos := by
    intro hkp
    have := List.of_mem_filter hkp
    simp at this
  have hndpos : pos.Nodup := (List.nodup_range n).filter _
  have htnodup : (L.take t).Nodup := List.Nodup.sublist (List.take_sublist _ _) hnodup
  have hcard : pos.length + 1 ≤ (L.take t).length := by
    have hsub2 : insert k pos.toFinset ⊆ (L.take t).toFinset := by
      intro x hx
      rcases Finset.mem_insert.mp hx with rfl | hx
      · exact List.mem_toFinset.mpr hk
      · exact List.mem_toFinset.mpr (hposin x (List.mem_toFinset.mp hx))
    have h1 : (insert k pos.toFinset).card = pos.length + 1 := by
      rw [Finset.card_insert_of_not_mem (fun h => hknot (List.mem_toFinset.mp h)),
        List.toFinset_card_of_nodup hndpos]
    calc pos.length + 1 = (insert k pos.toFinset).card := h1.symm
      _ ≤ (L.take t).toFinset.card := Finset.card_le_card hsub2
      _ ≤ (L.take t).length := List.toFinset_card_le _
  have := List.length_take_le t L
  omega

theorem partition_res_length {α : Type} {data : List α} {counts : List Nat}
    {res : List (List α)} (h : IsValidPartition data counts res) :
    res.length = counts.length := by
  have h2 := congrArg List.length h.1
  simpa using h2

theorem sum_map_cast_mul (c : ℚ) :
    ∀ (l : List Nat), (l.map fun w : Nat => (w : ℚ) * c).sum = (l.sum : ℚ) * c
  | [] => by simp
  | x :: xs => by
    simp only [List.map_cons, List.sum_cons, sum_map_cast_mul c xs]
    push_cast
    ring

theorem sum_map_cast_nat :
    ∀ (l : List Nat) (f : Nat → Nat),
      (l.map fun w : Nat => ((f w : Nat) : ℚ)).sum = ((l.map f).sum : ℚ)
  | [], _ => by simp
  | x :: xs, f => by
    simp only [List.map_cons, List.sum_cons, sum_map_cast_nat xs f]
    push_cast
    ring

/-- The proportional shares `(w / total_weight) * remainder` sum to the
remainder exactly. -/
theorem propShares_sum (ws : List Nat) (rem : Nat) (hs : 0 < ws.sum) :
    (ws.map fun w : Nat => (w : ℚ) / (ws.sum : ℚ) * (rem : ℚ)).sum = (rem : ℚ) := by
  have hs0 : ((ws.sum : ℚ)) ≠ 0 := by
    have h1 : ws.sum ≠ 0 := by omega
    exact_mod_cast h1
  have hfun : (fun w : Nat => (w : ℚ) / (ws.sum : ℚ) * (rem : ℚ))
      = fun w : Nat => (w : ℚ) * ((rem : ℚ) / (ws.sum : ℚ)) := by
    funext w
    ring
  rw [hfun, sum_map_cast_mul, mul_comm]
  exact div_mul_cancel₀ _ hs0

/-- Integer parts plus fractional parts of the proportional shares sum to
the remainder. -/
theorem prop_sum_split (ws : List Nat) (rem : Nat) (hs : 0 < ws.sum) :
    ((propIparts ws ws.sum rem).sum : ℚ) + (propFracs ws ws.sum rem).sum
      = (rem : ℚ) := by
  have hdec : (ws.map fun w : Nat =>
        ((⌊(w : ℚ) / (ws.sum : ℚ) * (rem : ℚ)⌋₊ : ℚ)
          + ((w : ℚ) / (ws.sum : ℚ) * (rem : ℚ)
            - (⌊(w : ℚ) / (ws.sum : ℚ) * (rem : ℚ)⌋₊ : ℚ)))).sum = (rem : ℚ) := by
    have hfun : (fun w : Nat =>
        ((⌊(w : ℚ) / (ws.sum : ℚ) * (rem : ℚ)⌋₊ : ℚ)
          + ((w : ℚ) / (ws.sum : ℚ) * (rem : ℚ)
            - (⌊(w : ℚ) / (ws.sum : ℚ) * (rem : ℚ)⌋₊ : ℚ))))
        = fun w : Nat => (w : ℚ) / (ws.sum : ℚ) * (rem : ℚ) := by
      funext w
      ring
    rw [hfun, propShares_sum ws rem hs]
  rw [sum_map_add_rat] at hdec
  rw [sum_map_cast_nat ws (fun w => ⌊(w : ℚ) / (ws.sum : ℚ) * (rem : ℚ)⌋₊)] at hdec
  exact hdec

theorem propFracs_nonneg (ws : List Nat) (tw rem : Nat) :
    ∀ x ∈ propFracs ws tw rem, 0 ≤ x := by
  intro x hx
  obtain ⟨w, _, hfx⟩ := List.mem_map.mp hx
  subst hfx
  show (0 : ℚ) ≤ (w : ℚ) / (tw : ℚ) * (rem : ℚ)
    - (⌊(w : ℚ) / (tw : ℚ) * (rem : ℚ)⌋₊ : ℚ)
  have hsh : (0 : ℚ) ≤ (w : ℚ) / (tw : ℚ) * (rem : ℚ) :=
    mul_nonneg (div_nonneg (Nat.cast_nonneg w) (Nat.cast_nonneg tw))
      (Nat.cast_nonneg rem)
  have := Nat.floor_le hsh
  linarith

theorem propFracs_lt_one (ws : List Nat) (tw rem : Nat) :
    ∀ x ∈ propFracs ws tw rem, x < 1 := by
  intro x hx
  obtain ⟨w, _, hfx⟩ := List.mem_map.mp hx
  subst hfx
  show (w : ℚ) / (tw : ℚ) * (rem : ℚ)
    - (⌊(w : ℚ) / (tw : ℚ) * (rem : ℚ)⌋₊ : ℚ) < 1
  have := Nat.lt_floor_add_one ((w : ℚ) / (tw : ℚ) * (rem : ℚ))
  linarith

theorem propIparts_getD (ws : List Nat) (tw rem : Nat) {k : Nat}
    (hk : k < ws.length) :
    (propIparts ws tw rem).getD k 0
      = ⌊(ws.getD k 0 : ℚ) / (tw : ℚ) * (rem : ℚ)⌋₊ := by
  rw [propIparts, getD_map_of_lt _ _ _ _ hk, List.getD_eq_getElem ws 0 hk,
    List.get_eq_getElem]

theorem propFracs_getD (ws : List Nat) (tw rem : Nat) {k : Nat}
    (hk : k < ws.length) :
    (propFracs ws tw rem).getD k 0
      = (ws.getD k 0 : ℚ) / (tw : ℚ) * (rem : ℚ)
        - (⌊(ws.getD k 0 : ℚ) / (tw : ℚ) * (rem : ℚ)⌋₊ : ℚ) := by
  rw [propFracs, getD_map_of_lt _ _ _ _ hk, List.getD_eq_getElem ws 0 hk,
    List.get_eq_getElem]

theorem propIparts_getD_zero_w {ws : List Nat} (tw rem : Nat) {k : Nat}
    (hk : k < ws.length) (hw : ws.getD k 0 = 0) :
    (propIparts ws tw rem).getD k 0 = 0 := by
  rw [propIparts_getD ws tw rem hk, hw]
  simp

theorem propFracs_getD_zero_w {ws : List Nat} (tw rem : Nat) {k : Nat}
    (hk : k < ws.length) (hw : ws.getD k 0 = 0) :
    (propFracs ws tw rem).getD k 0 = 0 := by
  rw [propFracs_getD ws tw rem hk, hw]
  simp

theorem propOrder_perm (ws : List Nat) (tw rem : Nat) :
    (propOrder ws tw rem).Perm (List.range ws.length) :=
  List.perm_insertionSort _ _

theorem propOrder_sorted (ws : List Nat) (tw rem : Nat) :
    List.Sorted (sortKeyLE (propFracs ws tw rem) 0) (propOrder ws tw rem) :=
  List.sorted_insertionSort _ _

theorem propOrder_nodup (ws : List Nat) (tw rem : Nat) :
    (propOrder ws tw rem).Nodup :=
  ((propOrder_perm ws tw rem).nodup_iff).mpr (List.nodup_range _)

theorem mem_propOrder (ws : List Nat) (tw rem : Nat) (i : Nat) :
    i ∈ propOrder ws tw rem ↔ i < ws.length := by
  rw [(propOrder_perm ws tw rem).mem_iff, List.mem_range]

theorem propOrder_length (ws : List Nat) (tw rem : Nat) :
    (propOrder ws tw rem).length = ws.length := by
  rw [(propOrder_perm ws tw rem).length_eq, List.length_range]

/-- Under the proportional strategy with positive total weight, a zero-weight
group's slot stays empty: its integer share is 0 and its fractional part 0
keeps it out of the first `leftover` positions of the fraction-sorted order,
because the fractional parts sum to exactly the leftover count and only
positions with strictly positive fraction can rank before a zero fraction. -/
theorem prop_zero_weight {α : Type} (ws : List Nat) (data : List α) {k : Nat}
    (hs : 0 < ws.sum) (hk : k < ws.length) (hw : ws.getD k 0 = 0) :
    ∃ r, distribute_by_weights data ws "proportional" = PyResult.ok r
      ∧ r.length = ws.length ∧ r.getD k [] = [] := by
  have hsne : ¬ ws.sum = 0 := by omega
  by_cases hd : data.isEmpty
  · refine ⟨ws.map fun _ => [], ?_, by simp, ?_⟩
    · unfold distribute_by_weights
      rw [if_pos hd]
    · rw [getD_map_of_lt _ _ _ _ hk]
  · set rem := data.length % ws.sum with hremdef
    by_cases hrem : 0 < rem
    · have hiplen : (propIparts ws ws.sum rem).length = ws.length := by
        simp [propIparts]
      have hflen : (propFracs ws ws.sum rem).length = ws.length := by
        simp [propFracs]
      have hipsum_eq : ((List.range ws.length).map
            fun j => (propIparts ws ws.sum rem).getD j 0).sum
          = (propIparts ws ws.sum rem).sum := by
        conv_rhs => rw [list_eq_range_map_getD (propIparts ws ws.sum rem) 0, hiplen]
      have hidx : (propState data ws).2
          = ws.sum * (data.length / ws.sum) + (propIparts ws ws.sum rem).sum := by
        unfold propState
        rw [← hremdef, propInts_idx, drGo_idx, hipsum_eq]
        simp
      have hstlen : (propState data ws).1.length = ws.length := by
        unfold propState
        rw [propInts_length, drGo_length]
      have hip0 : (propIparts ws ws.sum rem).getD k 0 = 0 :=
        propIparts_getD_zero_w ws.sum rem hk hw
      have hf0 : (propFracs ws ws.sum rem).getD k 0 = 0 :=
        propFracs_getD_zero_w ws.sum rem hk hw
      have hstgd : (propState data ws).1.getD k [] = [] := by
        unfold propState
        rw [← hremdef, propInts_getD_zero data _ hip0]
        exact drGo_getD_zero data _ ws 0 k hk hw
      have hsplit := prop_sum_split ws rem hs
      have hfr_nonneg : (0 : ℚ) ≤ (propFracs ws ws.sum rem).sum :=
        List.sum_nonneg (propFracs_nonneg ws ws.sum rem)
      have hips_le : (propIparts ws ws.sum rem).sum ≤ rem := by
        have h3 : ((propIparts ws ws.sum rem).sum : ℚ) ≤ (rem : ℚ) := by linarith
        exact_mod_cast h3
      have hlen0 : ws.sum * (data.length / ws.sum) + rem = data.length := by
        rw [hremdef]
        exact Nat.div_add_mod data.length ws.sum
      have hidxle : (propState data ws).2 ≤ data.length := by
        rw [hidx]
        linarith
      have hleft : data.length - (propState data ws).2
          = rem - (propIparts ws ws.sum rem).sum := by
        rw [hidx]
        nth_rewrite 1 [← hlen0]
        exact Nat.add_sub_add_left _ _ _
      have hleftcast : ((rem - (propIparts ws ws.sum rem).sum : Nat) : ℚ)
          = (propFracs ws ws.sum rem).sum := by
        rw [Nat.cast_sub hips_le]
        linarith
      have hmapsum : ((List.range ws.length).map
            fun p => (propFracs ws ws.sum rem).getD p 0).sum
          = (propFracs ws ws.sum rem).sum := by
        conv_rhs => rw [list_eq_range_map_getD (propFracs ws ws.sum rem) 0, hflen]
      have hcount : (propFracs ws ws.sum rem).sum
          ≤ (((List.range ws.length).filter
              fun p => decide (0 < (propFracs ws ws.sum rem).getD p 0)).length : ℚ) := by
        rw [← hmapsum]
        apply sum_map_le_countPos_rat
        · intro j hj
          have hjn : j < ws.length := List.mem_range.mp hj
          have hjm : (propFracs ws ws.sum rem).getD j 0 ∈ propFracs ws ws.sum rem := by
            rw [List.getD_eq_getElem _ _ (by rw [hflen]; exact hjn)]
            exact List.getElem_mem _
          exact propFracs_nonneg ws ws.sum rem _ hjm
        · intro j hj
          have hjn : j < ws.length := List.mem_range.mp hj
          have hjm : (propFracs ws ws.sum rem).getD j 0 ∈ propFracs ws ws.sum rem := by
            rw [List.getD_eq_getElem _ _ (by rw [hflen]; exact hjn)]
            exact List.getElem_mem _
          exact propFracs_lt_one ws ws.sum rem _ hjm
      have hleftP : data.length - (propState data ws).2
          ≤ ((List.range ws.length).filter
              fun p => decide (0 < (propFracs ws ws.sum rem).getD p 0)).length := by
        rw [hleft]
        have h4 : ((rem - (propIparts ws ws.sum rem).sum : Nat) : ℚ)
            ≤ (((List.range ws.length).filter
                fun p => decide (0 < (propFracs ws ws.sum rem).getD p 0)).length : ℚ) := by
          rw [hleftcast]
          exact hcount
        exact_mod_cast h4
      have hcov : data.length - (propState data ws).2
          ≤ (propOrder ws ws.sum rem).length := by
        rw [propOrder_length]
        have h5 := List.length_filter_le
          (fun p => decide (0 < (propFracs ws ws.sum rem).getD p 0)) (List.range ws.length)
        simp only [List.length_range] at h5
        omega
      obtain ⟨r, hr, hrlen, hrout⟩ := rrLoop_run data (propOrder ws ws.sum rem)
        (data.length + 1) (propState data ws).1 (propState data ws).2
        (by omega) hidxle hcov
      have hknot : k ∉ (propOrder ws ws.sum rem).take
          (data.length - (propState data ws).2) := by
        intro hmem
        have hcnt := take_count_lt (propFracs ws ws.sum rem) 0
          (propOrder ws ws.sum rem) ws.length (data.length - (propState data ws).2) k
          (propOrder_sorted ws ws.sum rem) (propOrder_nodup ws ws.sum rem)
          (mem_propOrder ws ws.sum rem) hmem
        have hfeq : ((List.range ws.length).filter
              fun p => decide ((propFracs ws ws.sum rem).getD k 0
                < (propFracs ws ws.sum rem).getD p 0))
            = ((List.range ws.length).filter
              fun p => decide (0 < (propFracs ws ws.sum rem).getD p 0)) := by
          apply List.filter_congr
          intro x _
          rw [hf0]
        rw [hfeq] at hcnt
        omega
      refine ⟨r, ?_, ?_, ?_⟩
      · unfold distribute_by_weights
        rw [if_neg hd, if_neg hsne, ← hremdef, if_pos hrem, if_pos rfl, hr]
      · rw [hrlen, hstlen]
      · rw [hrout k hknot, hstgd]
    · refine ⟨(drGo data (data.length / ws.sum) ws 0).1, ?_,
        drGo_length data _ ws 0, drGo_getD_zero data _ ws 0 k hk hw⟩
      unfold distribute_by_weights
      rw [if_neg hd, if_neg hsne, ← hremdef, if_neg hrem]

/-- Claim C6 (amended): a zero-weight group always receives an empty
subsequence while its key stays present (the result keeps one entry per
group): unconditionally for the assigner's chunk policy, and under positive
total weight for block_interleaved, gcd_interleaved and the distributor's
proportional strategy. The distributor's round_robin and sequential_fill
remainder strategies hand leftover items to zero-weight groups, so the
exclusion does not hold for every strategy of the program. -/
theorem zero_weight_amended {α : Type} :
    (∀ (ws : List Nat) (data : List α) (k : Nat), k < ws.length →
        ws.getD k 0 = 0 →
        (assign_chunk ws data).length = ws.length
          ∧ (assign_chunk ws data).getD k [] = [])
    ∧ (∀ (ws : List Nat) (data : List α) (bs k : Nat), 0 < ws.sum → 0 < bs →
        k < ws.length → ws.getD k 0 = 0 →
        ∃ res, assign_block_interleaved ws data bs = PyResult.ok res
          ∧ res.length = ws.length ∧ res.getD k [] = [])
    ∧ (∀ (ws : List Nat) (data : List α) (k : Nat), 0 < ws.sum →
        k < ws.length → ws.getD k 0 = 0 →
        ∃ res, assign_gcd_interleaved ws data = PyResult.ok res
          ∧ res.length = ws.length ∧ res.getD k [] = [])
    ∧ (∀ (ws : List Nat) (data : List α) (k : Nat), 0 < ws.sum →
        k < ws.length → ws.getD k 0 = 0 →
        ∃ res, distribute_by_weights data ws "proportional" = PyResult.ok res
          ∧ res.length = ws.length ∧ res.getD k [] = []) := by
  refine ⟨?_, ?_, ?_, ?_⟩
  · intro ws data k hk hw
    have hlrm0 := lrm_zero_weight data.length ws hk hw
    have hll : (largest_remainder_method data.length ws).length = ws.length :=
      lrm_length data.length ws
    constructor
    · unfold assign_chunk
      rw [assign_chunk_go_length, hll]
    · unfold assign_chunk
      rw [assign_chunk_go_getD data _ 0 k (by rw [hll]; exact hk), hlrm0]
      simp
  · intro ws data bs k hs hbs hk hw
    obtain ⟨res, hres, hpart⟩ := assign_block_interleaved_partition ws data bs hs hbs
    have hrl : res.length = ws.length := by
      rw [partition_res_length hpart, lrm_length]
    refine ⟨res, hres, hrl, ?_⟩
    have hlen := partition_getD_len hpart k (by rw [hrl]; exact hk)
    rw [lrm_zero_weight data.length ws hk hw] at hlen
    exact List.length_eq_zero.mp hlen
  · intro ws data k hs hk hw
    obtain ⟨res, hres, hpart⟩ := assign_gcd_interleaved_partition ws data hs
    have hrl : res.length = ws.length := by
      rw [partition_res_length hpart, lrm_length]
    refine ⟨res, hres, hrl, ?_⟩
    have hlen := partition_getD_len hpart k (by rw [hrl]; exact hk)
    rw [lrm_zero_weight data.length ws hk hw] at hlen
    exact List.length_eq_zero.mp hlen
  · intro ws data k hs hk hw
    exact prop_zero_weight ws data hs hk hw

/-- Claim C6, witness for the amended statement at the weight map `[0, 2]`,
data `[1, 2, 3]`, block size 2 and zero-weight group 0. -/
theorem zero_weight_amended_witness :
    ((assign_chunk [0, 2] ([1, 2, 3] : List Nat)).length = 2
      ∧ (assign_chunk [0, 2] ([1, 2, 3] : List Nat)).getD 0 [] = [])
    ∧ (∃ res, assign_block_interleaved [0, 2] ([1, 2, 3] : List Nat) 2
        = PyResult.ok res ∧ res.length = 2 ∧ res.getD 0 [] = [])
    ∧ (∃ res, assign_gcd_interleaved [0, 2] ([1, 2, 3] : List Nat)
        = PyResult.ok res ∧ res.length = 2 ∧ res.getD 0 [] = [])
    ∧ (∃ res, distribute_by_weights ([1, 2, 3] : List Nat) [0, 2] "proportional"
        = PyResult.ok res ∧ res.length = 2 ∧ res.getD 0 [] = []) :=
  ⟨(zero_weight_amended (α := Nat)).1 [0, 2] [1, 2, 3] 0 (by decide) (by decide),
   (zero_weight_amended (α := Nat)).2.1 [0, 2] [1, 2, 3] 2 0 (by decide) (by decide)
     (by decide) (by decide),
   (zero_weight_amended (α := Nat)).2.2.1 [0, 2] [1, 2, 3] 0 (by decide) (by decide)
     (by decide),
   (zero_weight_amended (α := Nat)).2.2.2 [0, 2] [1, 2, 3] 0 (by decide) (by decide)
     (by decide)⟩

/-! ### The gcd-interleaved two-phase contract -/

/-- Contiguous fill: hand each key, in order, the next `cnts[k]` items of
`data` starting at `idx` (the contract's round emission and deficit fill). -/
def fillByCounts {α : Type} (data : List α) (cnts : List Nat) :
    List Nat → Nat → List (List α) → List (List α) × Nat
  | [], idx, res => (res, idx)
  | k :: ks, idx, res =>
      fillByCounts data cnts ks (idx + cnts.getD k 0)
        (res.set k (res.getD k [] ++ (data.drop idx).take (cnts.getD k 0)))

/-- The reduced pattern `weight_k / gcd` of the contract. -/
def specPattern (ws : List Nat) : List Nat :=
  ws.map fun w => w / gcd_list ws

/-- Per-group emission of round `r` (0-indexed) under the per-group rule:
group `k` emits a full pattern in round `r` exactly when the whole pattern
still fits its remaining quota, i.e. `(r + 1) * pattern_k ≤ quota_k`. -/
def eCounts (p f : List Nat) (n r : Nat) : List Nat :=
  (List.range n).map fun k =>
    if (r + 1) * p.getD k 0 ≤ f.getD k 0 then p.getD k 0 else 0

/-- The number of pattern rounds: group `k` emits in rounds `0..quota_k /
pattern_k - 1`, and rounds continue while some group still emits. -/
def maxRounds (p f : List Nat) (n : Nat) : Nat :=
  ((List.range n).map fun k => f.getD k 0 / p.getD k 0).foldr max 0

/-- Emit rounds `r, r + 1, ..., r + c - 1`, each handing every group its
round emission in key order. -/
def iterateRounds {α : Type} (data : List α) (p f : List Nat) (n : Nat) :
    Nat → Nat → Nat → List (List α) → List (List α) × Nat
  | _, 0, idx, res => (res, idx)
  | r, c + 1, idx, res =>
      iterateRounds data p f n (r + 1) c
        (fillByCounts data (eCounts p f n r) (List.range n) idx res).2
        (fillByCounts data (eCounts p f n r) (List.range n) idx res).1

/-- Phase 1 of the contract: all pattern rounds, from the all-empty result. -/
def specPhase1 {α : Type} (ws : List Nat) (data : List α) :
    List (List α) × Nat :=
  iterateRounds data (specPattern ws) (largest_remainder_method data.length ws)
    ws.length 0
    (maxRounds (specPattern ws) (largest_remainder_method data.length ws) ws.length)
    0 (ws.map fun _ => [])

/-- The per-group deficits left after phase 1: quota minus the emitted
`pattern_k * (quota_k / pattern_k)` items. -/
def specDeficits {α : Type} (ws : List Nat) (data : List α) : List Nat :=
  (List.range ws.length).map fun k =>
    (largest_remainder_method data.length ws).getD k 0
      - (specPattern ws).getD k 0
        * ((largest_remainder_method data.length ws).getD k 0
            / (specPattern ws).getD k 0)

/-- The gcd-interleaved contract with the per-group round rule: pattern
rounds while each group's own remaining quota admits a full pattern, then a
contiguous fill of the remaining deficits in key order. -/
def specGcdTwoPhase {α : Type} (ws : List Nat) (data : List α) :
    List (List α) :=
  (fillByCounts (data.drop (specPhase1 ws data).2) (specDeficits ws data)
    (List.range ws.length) 0 (specPhase1 ws data).1).1

/-- The number of full rounds under the claimed global-stop rule: rounds run
only while emitting an entire round (every group's full pattern) would not
exceed any group's remaining quota. -/
def gsRounds (p f : List Nat) (n total : Nat) : Nat :=
  ((List.range (total + 1)).filter fun r =>
    decide (∀ k ∈ List.range n, (r + 1) * p.getD k 0 ≤ f.getD k 0)).length

/-- Emit `c` full rounds, each handing every group its entire pattern. -/
def iterateConstRounds {α : Type} (data : List α) (p : List Nat) (n : Nat) :
    Nat → Nat → List (List α) → List (List α) × Nat
  | 0, idx, res => (res, idx)
  | c + 1, idx, res =>
      iterateConstRounds data p n c
        (fillByCounts data p (List.range n) idx res).2
        (fillByCounts data p (List.range n) idx res).1

/-- The claimed global-stop contract: full pattern rounds stop entirely at
the first round that would overflow some group's remaining quota; the
remaining slots fill the deficits contiguously in key order. -/
def specGcdGlobalStop {α : Type} (ws : List Nat) (data : List α) :
    List (List α) :=
  (fillByCounts
    (data.drop (iterateConstRounds data (specPattern ws) ws.length
      (gsRounds (specPattern ws) (largest_remainder_method data.length ws)
        ws.length data.length) 0 (ws.map fun _ => [])).2)
    ((List.range ws.length).map fun k =>
      (largest_remainder_method data.length ws).getD k 0
        - (specPattern ws).getD k 0
          * gsRounds (specPattern ws) (largest_remainder_method data.length ws)
              ws.length data.length)
    (List.range ws.length) 0
    (iterateConstRounds data (specPattern ws) ws.length
      (gsRounds (specPattern ws) (largest_remainder_method data.length ws)
        ws.length data.length) 0 (ws.map fun _ => [])).1).1

/-- The hybrid `distributed` list mid-sweep of round `t`: keys before `m`
already emitted their round-`t` pattern. -/
def distMid (p f : List Nat) (n t m : Nat) : List Nat :=
  (List.range n).map fun k =>
    p.getD k 0 * min (if k < m then t + 1 else t) (f.getD k 0 / p.getD k 0)

theorem fillByCounts_cons {α : Type} (data : List α) (cnts : List Nat)
    (k : Nat) (ks : List Nat) (idx : Nat) (res : List (List α)) :
    fillByCounts data cnts (k :: ks) idx res
      = fillByCounts data cnts ks (idx + cnts.getD k 0)
          (res.set k (res.getD k [] ++ (data.drop idx).take (cnts.getD k 0))) :=
  rfl

theorem fillByCounts_length {α : Type} (data : List α) (cnts : List Nat) :
    ∀ (ks : List Nat) (idx : Nat) (res : List (List α)),
      (fillByCounts data cnts ks idx res).1.length = res.length
  | [], _, _ => rfl
  | k :: ks, idx, res => by
    rw [fillByCounts_cons, fillByCounts_length data cnts ks _ _, List.length_set]

theorem fillByCounts_idx {α : Type} (data : List α) (cnts : List Nat) :
    ∀ (ks : List Nat) (idx : Nat) (res : List (List α)),
      (fillByCounts data cnts ks idx res).2
        = idx + (ks.map fun k => cnts.getD k 0).sum
  | [], idx, _ => by simp [fillByCounts]
  | k :: ks, idx, res => by
    rw [fillByCounts_cons, fillByCounts_idx data cnts ks _ _]
    simp only [List.map_cons, List.sum_cons]
    omega

theorem fillByCounts_zero {α : Type} (data : List α) (cnts : List Nat) :
    ∀ (ks : List Nat) (idx : Nat) (res : List (List α)),
      (∀ k ∈ ks, cnts.getD k 0 = 0 ∧ k < res.length) →
      fillByCounts data cnts ks idx res = (res, idx)
  | [], _, _, _ => rfl
  | k :: ks, idx, res, h => by
    have hk := h k (List.mem_cons_self _ _)
    rw [fillByCounts_cons, hk.1, List.take_zero, List.append_nil, Nat.add_zero,
      set_getD_self _ _ _ hk.2]
    exact fillByCounts_zero data cnts ks idx res
      (fun j hj => h j (List.mem_cons_of_mem _ hj))

theorem fillByCounts_nil_left {α : Type} (cnts : List Nat) :
    ∀ (ks : List Nat) (idx : Nat) (res : List (List α)),
      (∀ k ∈ ks, k < res.length) →
      fillByCounts ([] : List α) cnts ks idx res
        = (res, idx + (ks.map fun k => cnts.getD k 0).sum)
  | [], idx, res, _ => by simp [fillByCounts]
  | k :: ks, idx, res, h => by
    have hk := h k (List.mem_cons_self _ _)
    rw [fillByCounts_cons, List.drop_nil, List.take_nil, List.append_nil,
      set_getD_self _ _ _ hk]
    rw [fillByCounts_nil_left cnts ks _ res
      (fun j hj => h j (List.mem_cons_of_mem _ hj))]
    simp only [List.map_cons, List.sum_cons, Nat.add_assoc]

theorem giFill_eq_fillByCounts {α : Type} (left : List α) (cnts : List Nat) :
    ∀ (ks : List Nat) (idx : Nat) (res : List (List α)),
      (∀ k ∈ ks, k < res.length) →
      giFill left cnts ks idx res = (fillByCounts left cnts ks idx res).1
  | [], _, _, _ => rfl
  | k :: ks, idx, res, h => by
    have hk := h k (List.mem_cons_self _ _)
    rw [fillByCounts_cons]
    by_cases hc : 0 < cnts.getD k 0
    · rw [giFill_cons, if_pos hc]
      exact giFill_eq_fillByCounts left cnts ks _ _
        (fun j hj => by rw [List.length_set]; exact h j (List.mem_cons_of_mem _ hj))
    · have hc0 : cnts.getD k 0 = 0 := by omega
      rw [giFill_cons, if_neg hc, hc0, List.take_zero, List.append_nil,
        Nat.add_zero, set_getD_self _ _ _ hk]
      exact giFill_eq_fillByCounts left cnts ks idx res
        (fun j hj => h j (List.mem_cons_of_mem _ hj))

/-- A full inner emission: when the group's remaining quota and the data
both admit `m` more items, `giEmit` appends exactly the next `m` items. -/
theorem giEmit_full {α : Type} (data : List α) (finals : List Nat) (k : Nat) :
    ∀ (m : Nat) (st : GIState α) (flag : Bool),
      st.dist.getD k 0 + m ≤ finals.getD k 0 →
      st.idx + m ≤ data.length →
      k < st.res.length → k < st.dist.length →
      giEmit data finals k m (st, flag)
        = (⟨st.res.set k (st.res.getD k [] ++ (data.drop st.idx).take m),
            st.dist.set k (st.dist.getD k 0 + m), st.idx + m⟩,
           flag || decide (0 < m))
  | 0, st, flag, hdist, hidx, hkr, hkd => by
    show (st, flag) = _
    rw [List.take_zero, List.append_nil, set_getD_self _ _ _ hkr, Nat.add_zero,
      Nat.add_zero, set_getD_self _ _ _ hkd]
    simp
  | m + 1, st, flag, hdist, hidx, hkr, hkd => by
    have hrec := giEmit_full data finals k m
      ⟨st.res.set k (st.res.getD k [] ++ (data.drop st.idx).take 1),
        st.dist.set k (st.dist.getD k 0 + 1), st.idx + 1⟩ true
      (by simp only [getD_set_eq _ _ _ _ hkd]; omega)
      (by show st.idx + 1 + m ≤ data.length; omega)
      (by show k < (st.res.set k _).length; rw [List.length_set]; exact hkr)
      (by show k < (st.dist.set k _).length; rw [List.length_set]; exact hkd)
    rw [giEmit_succ, if_pos ⟨by omega, by omega⟩, hrec]
    have hseg : (data.drop st.idx).take 1 ++ (data.drop (st.idx + 1)).take m
        = (data.drop st.idx).take (m + 1) := by
      rw [show m + 1 = 1 + m by omega, List.take_add]
      congr 1
      rw [List.drop_drop, Nat.add_comm]
    have harith1 : st.dist.getD k 0 + 1 + m = st.dist.getD k 0 + (m + 1) := by
      omega
    have harith2 : st.idx + 1 + m = st.idx + (m + 1) := by omega
    have hb : decide (0 < m + 1) = true := decide_eq_true (Nat.succ_pos m)
    simp only [List.set_set, getD_set_eq _ _ _ _ hkr, getD_set_eq _ _ _ _ hkd,
      List.append_assoc, hseg, harith1, harith2, hb, Bool.or_true, Bool.true_or]

theorem econd_iff {pp ff t : Nat} (hp : 0 < pp) :
    ((t + 1) * pp ≤ ff) ↔ t < ff / pp := by
  rw [Nat.lt_iff_add_one_le, Nat.le_div_iff_mul_le hp]

/-- The code's round guard `distributed[k] + round_counts[k] <=
final_counts[k]`, at `distributed[k] = pattern * min t (quota / pattern)`,
holds exactly when group `k` still has a full round left: `t < quota /
pattern`. -/
theorem guard_iff {pp ff t : Nat} (hp : 0 < pp) :
    (pp * min t (ff / pp) + pp ≤ ff) ↔ t < ff / pp := by
  constructor
  · intro h
    by_contra hnot
    push_neg at hnot
    rw [min_eq_right hnot] at h
    have h2 : (ff / pp + 1) * pp ≤ ff := by
      have h3 : (ff / pp + 1) * pp = pp * (ff / pp) + pp := by ring
      linarith
    have h4 := (Nat.le_div_iff_mul_le hp).mp (le_refl (ff / pp))
    have h5 := (Nat.le_div_iff_mul_le hp).mpr h2
    omega
  · intro h
    rw [min_eq_left (by omega)]
    have h2 : (t + 1) * pp ≤ ff := (econd_iff hp).mpr h
    have h3 : (t + 1) * pp = pp * t + pp := by ring
    linarith

theorem distMid_length (p f : List Nat) (n t m : Nat) :
    (distMid p f n t m).length = n := by
  simp [distMid]

theorem distMid_getD (p f : List Nat) (n t m k : Nat) (hk : k < n) :
    (distMid p f n t m).getD k 0
      = p.getD k 0 * min (if k < m then t + 1 else t)
          (f.getD k 0 / p.getD k 0) := by
  rw [distMid, getD_range_map _ _ _ _ hk]

theorem distMid_succ (p f : List Nat) (n t m : Nat) (hm : m < n) :
    distMid p f n t (m + 1)
      = (distMid p f n t m).set m
          (p.getD m 0 * min (t + 1) (f.getD m 0 / p.getD m 0)) := by
  apply List.ext_getElem
  · simp [distMid]
  · intro j h1 h2
    rw [List.getElem_set]
    by_cases hj : m = j
    · rw [if_pos hj]
      subst hj
      simp only [distMid, List.getElem_map, List.getElem_range]
      rw [if_pos (Nat.lt_succ_self m)]
    · rw [if_neg hj]
      simp only [distMid, List.getElem_map, List.getElem_range]
      have hiff : j < m + 1 ↔ j < m := by
        have hne : j ≠ m := fun hjm => hj hjm.symm
        omega
      rw [if_congr hiff rfl rfl]

theorem distMid_roll (p f : List Nat) (n t : Nat) :
    distMid p f n t n = distMid p f n (t + 1) 0 := by
  apply List.ext_getElem
  · simp [distMid]
  · intro j h1 h2
    have hjn : j < n := by simpa [distMid] using h1
    simp only [distMid, List.getElem_map, List.getElem_range]
    rw [if_pos hjn, if_neg (by omega : ¬ j < 0)]

theorem distMid_stable (p f : List Nat) (n t : Nat)
    (h : ∀ k < n, f.getD k 0 / p.getD k 0 ≤ t) :
    distMid p f n (t + 1) 0 = distMid p f n t 0 := by
  apply List.ext_getElem
  · simp [distMid]
  · intro j h1 h2
    have hjn : j < n := by simpa [distMid] using h1
    simp only [distMid, List.getElem_map, List.getElem_range]
    rw [if_neg (by omega : ¬ j < 0), if_neg (by omega : ¬ j < 0)]
    have hr := h j hjn
    rw [min_eq_right (by omega), min_eq_right hr]

theorem distMid_init (ws p f : List Nat) :
    ws.map (fun _ => (0 : Nat)) = distMid p f ws.length 0 0 := by
  apply List.ext_getElem
  · simp [distMid]
  · intro j h1 h2
    simp only [distMid, List.getElem_map, List.getElem_range]
    rw [if_neg (by omega : ¬ j < 0)]
    simp [Nat.zero_min]

theorem distMid_sum_zero (p f : List Nat) (n : Nat) :
    (distMid p f n 0 0).sum = 0 := by
  apply List.sum_eq_zero
  intro x hx
  rw [distMid] at hx
  obtain ⟨k, _, hfx⟩ := List.mem_map.mp hx
  subst hfx
  rw [if_neg (by omega : ¬ k < 0)]
  simp [Nat.zero_min]

theorem le_foldr_max (b : Nat) : ∀ (l : List Nat), b ∈ l → b ≤ l.foldr max 0
  | [], h => by simp at h
  | x :: xs, h => by
    rcases List.mem_cons.mp h with rfl | h2
    · exact le_max_left _ _
    · exact le_trans (le_foldr_max b xs h2) (le_max_right _ _)

theorem foldr_max_le {b : Nat} :
    ∀ (l : List Nat), (∀ x ∈ l, x ≤ b) → l.foldr max 0 ≤ b
  | [], _ => by simp
  | x :: xs, h => by
    show max x (xs.foldr max 0) ≤ b
    exact max_le (h x (List.mem_cons_self _ _))
      (foldr_max_le xs fun y hy => h y (List.mem_cons_of_mem _ hy))

theorem lt_foldr_max {b : Nat} :
    ∀ (l : List Nat), b < l.foldr max 0 → ∃ x ∈ l, b < x
  | [], h => by simp at h
  | x :: xs, h => by
    rw [List.foldr_cons] at h
    rcases lt_max_iff.mp h with h1 | h2
    · exact ⟨x, List.mem_cons_self _ _, h1⟩
    · obtain ⟨y, hy, hby⟩ := lt_foldr_max xs h2
      exact ⟨y, List.mem_cons_of_mem _ hy, hby⟩

theorem lt_maxRounds {p f : List Nat} {n t : Nat} (h : t < maxRounds p f n) :
    ∃ k < n, t < f.getD k 0 / p.getD k 0 := by
  obtain ⟨x, hx, htx⟩ := lt_foldr_max _ h
  obtain ⟨k, hk, hfx⟩ := List.mem_map.mp hx
  exact ⟨k, List.mem_range.mp hk, hfx ▸ htx⟩

theorem maxRounds_ge {p f : List Nat} {n k : Nat} (hk : k < n) :
    f.getD k 0 / p.getD k 0 ≤ maxRounds p f n :=
  le_foldr_max _ _ (List.mem_map.mpr ⟨k, List.mem_range.mpr hk, rfl⟩)

theorem maxRounds_le {p f : List Nat} {n b : Nat}
    (h : ∀ k < n, f.getD k 0 / p.getD k 0 ≤ b) : maxRounds p f n ≤ b := by
  apply foldr_max_le
  intro x hx
  obtain ⟨k, hk, hfx⟩ := List.mem_map.mp hx
  exact hfx ▸ h k (List.mem_range.mp hk)

theorem eCounts_getD (p f : List Nat) (n r k : Nat) (hk : k < n) :
    (eCounts p f n r).getD k 0
      = if (r + 1) * p.getD k 0 ≤ f.getD k 0 then p.getD k 0 else 0 := by
  rw [eCounts, getD_range_map _ _ _ _ hk]

theorem giEmit_full_mk {α : Type} (data : List α) (finals : List Nat)
    (k m : Nat) (res : List (List α)) (dist : List Nat) (idxv : Nat)
    (flag : Bool) (hdist : dist.getD k 0 + m ≤ finals.getD k 0)
    (hidx : idxv + m ≤ data.length) (hkr : k < res.length)
    (hkd : k < dist.length) :
    giEmit data finals k m (⟨res, dist, idxv⟩, flag)
      = (⟨res.set k (res.getD k [] ++ (data.drop idxv).take m),
          dist.set k (dist.getD k 0 + m), idxv + m⟩, flag || decide (0 < m)) :=
  giEmit_full data finals k m ⟨res, dist, idxv⟩ flag hdist hidx hkr hkd

/-- One `for k in keys` sweep of the gcd loop at round `t`, over the key
suffix `m, m+1, ..., n-1`: it performs exactly the round-`t` contiguous
emission `fillByCounts` with the per-group counts `eCounts`, updates the
`distributed` list to its end-of-round form, and sets `can_distribute`
exactly when some remaining group emits. -/
theorem giSweep_spec {α : Type} (data : List α) (p f : List Nat) (n t : Nat) :
    ∀ (c m : Nat) (res : List (List α)) (idx : Nat) (flag : Bool),
      m + c = n →
      res.length = n →
      idx + ((List.range' m c).map fun k => (eCounts p f n t).getD k 0).sum
          ≤ data.length →
      giSweep data p f (List.range' m c) (⟨res, distMid p f n t m, idx⟩, flag)
        = (⟨(fillByCounts data (eCounts p f n t) (List.range' m c) idx res).1,
            distMid p f n t n,
            (fillByCounts data (eCounts p f n t) (List.range' m c) idx res).2⟩,
           flag || decide
             (0 < ((List.range' m c).map
                fun k => (eCounts p f n t).getD k 0).sum))
  | 0, m, res, idx, flag, hmc, hres, hidx => by
    have hm : m = n := by omega
    subst hm
    simp [giSweep, fillByCounts]
  | c + 1, m, res, idx, flag, hmc, hres, hidx => by
    have hmn : m < n := by omega
    have hrange : List.range' m (c + 1) = m :: List.range' (m + 1) c := rfl
    rw [hrange] at hidx ⊢
    simp only [List.map_cons, List.sum_cons] at hidx ⊢
    rw [giSweep_cons]
    have hdg : (distMid p f n t m).getD m 0
        = p.getD m 0 * min t (f.getD m 0 / p.getD m 0) := by
      rw [distMid_getD p f n t m m hmn, if_neg (lt_irrefl m)]
    have hresm : m < res.length := by omega
    have hdistm : m < (distMid p f n t m).length := by
      rw [distMid_length]
      exact hmn
    by_cases hp : 0 < p.getD m 0
    · by_cases hg : t < f.getD m 0 / p.getD m 0
      · -- the group emits a full pattern this round
        have hecm : (eCounts p f n t).getD m 0 = p.getD m 0 := by
          rw [eCounts_getD p f n t m hmn, if_pos ((econd_iff hp).mpr hg)]
        rw [hecm] at hidx
        have hguard : (distMid p f n t m).getD m 0 + p.getD m 0
            ≤ f.getD m 0 := by
          rw [hdg]
          exact (guard_iff hp).mpr hg
        rw [if_pos hguard]
        rw [giEmit_full_mk data f m (p.getD m 0) res (distMid p f n t m) idx
          flag hguard (by omega) hresm hdistm]
        have hval : (distMid p f n t m).getD m 0 + p.getD m 0
            = p.getD m 0 * min (t + 1) (f.getD m 0 / p.getD m 0) := by
          rw [hdg, min_eq_left (by omega), min_eq_left (by omega)]
          ring
        rw [hval, ← distMid_succ p f n t m hmn]
        rw [show decide (0 < p.getD m 0) = true from decide_eq_true hp,
          Bool.or_true]
        rw [giSweep_spec data p f n t c (m + 1)
          (res.set m (res.getD m [] ++ (data.drop idx).take (p.getD m 0)))
          (idx + p.getD m 0) true (by omega)
          (by rw [List.length_set]; exact hres) (by omega)]
        rw [fillByCounts_cons]
        simp only [hecm]
        rw [Bool.true_or, show decide (0 < p.getD m 0
            + ((List.range' (m + 1) c).map
                fun k => (eCounts p f n t).getD k 0).sum) = true
          from decide_eq_true (by omega), Bool.or_true]
      · -- the pattern no longer fits: the group is skipped
        have hecm : (eCounts p f n t).getD m 0 = 0 := by
          rw [eCounts_getD p f n t m hmn, if_neg]
          intro hcon
          exact hg ((econd_iff hp).mp hcon)
        rw [hecm] at hidx
        have hguard : ¬ (distMid p f n t m).getD m 0 + p.getD m 0
            ≤ f.getD m 0 := by
          rw [hdg]
          intro hcon
          exact hg ((guard_iff hp).mp hcon)
        rw [if_neg hguard]
        have hstable : distMid p f n t (m + 1) = distMid p f n t m := by
          rw [distMid_succ p f n t m hmn]
          have hv : p.getD m 0 * min (t + 1) (f.getD m 0 / p.getD m 0)
              = (distMid p f n t m).getD m 0 := by
            rw [hdg, min_eq_right (by omega), min_eq_right (by omega)]
          rw [hv, set_getD_self _ _ _ hdistm]
        rw [← hstable]
        rw [giSweep_spec data p f n t c (m + 1) res idx flag (by omega) hres
          (by omega)]
        rw [fillByCounts_cons]
        simp only [hecm, List.take_zero, List.append_nil, Nat.add_zero,
          set_getD_self _ _ _ hresm, Nat.zero_add]
    · -- zero pattern: the guard holds but nothing is emitted
      have hp0 : p.getD m 0 = 0 := by omega
      have hecm : (eCounts p f n t).getD m 0 = 0 := by
        rw [eCounts_getD p f n t m hmn, hp0]
        simp
      rw [hecm] at hidx
      have hguard : (distMid p f n t m).getD m 0 + p.getD m 0
          ≤ f.getD m 0 := by
        rw [hdg, hp0]
        simp
      rw [if_pos hguard, hp0]
      show giSweep data p f (List.range' (m + 1) c)
          (⟨res, distMid p f n t m, idx⟩, flag) = _
      have hstable : distMid p f n t (m + 1) = distMid p f n t m := by
        rw [distMid_succ p f n t m hmn]
        have hv : p.getD m 0 * min (t + 1) (f.getD m 0 / p.getD m 0)
            = (distMid p f n t m).getD m 0 := by
          rw [hdg, hp0]
          simp
        rw [hv, set_getD_self _ _ _ hdistm]
      rw [← hstable]
      rw [giSweep_spec data p f n t c (m + 1) res idx flag (by omega) hres
        (by omega)]
      rw [fillByCounts_cons]
      simp only [hecm, List.take_zero, List.append_nil, Nat.add_zero,
        set_getD_self _ _ _ hresm, Nat.zero_add]

theorem map_range_congr {γ : Type} (g h : Nat → γ) (n : Nat)
    (H : ∀ k < n, g k = h k) :
    (List.range n).map g = (List.range n).map h := by
  apply List.ext_getElem
  · simp
  · intro j h1 h2
    simp only [List.getElem_map, List.getElem_range]
    exact H j (by simpa using h1)

theorem iterateRounds_zero {α : Type} (data : List α) (p f : List Nat)
    (n r idx : Nat) (res : List (List α)) :
    iterateRounds data p f n r 0 idx res = (res, idx) := rfl

theorem iterateRounds_succ {α : Type} (data : List α) (p f : List Nat)
    (n r c idx : Nat) (res : List (List α)) :
    iterateRounds data p f n r (c + 1) idx res
      = iterateRounds data p f n (r + 1) c
          (fillByCounts data (eCounts p f n r) (List.range n) idx res).2
          (fillByCounts data (eCounts p f n r) (List.range n) idx res).1 := rfl

theorem iterateRounds_length {α : Type} (data : List α) (p f : List Nat)
    (n : Nat) :
    ∀ (c r idx : Nat) (res : List (List α)),
      (iterateRounds data p f n r c idx res).1.length = res.length
  | 0, _, _, _ => rfl
  | c + 1, r, idx, res => by
    rw [iterateRounds_succ, iterateRounds_length data p f n c _ _ _,
      fillByCounts_length]

/-- The round-`t` emission advances the distributed total from the round-`t`
prefix sums to the round-`t + 1` ones. -/
theorem distMid_sum_roll (p f : List Nat) (n t : Nat) :
    (distMid p f n t 0).sum
      + ((List.range' 0 n).map fun k => (eCounts p f n t).getD k 0).sum
      = (distMid p f n (t + 1) 0).sum := by
  rw [← List.range_eq_range']
  simp only [distMid]
  rw [← sum_map_add_nat]
  congr 1
  apply map_range_congr
  intro k hk
  dsimp only
  rw [eCounts_getD p f n t k hk]
  rw [if_neg (by omega : ¬ k < 0), if_neg (by omega : ¬ k < 0)]
  by_cases hp : 0 < p.getD k 0
  · by_cases hc : (t + 1) * p.getD k 0 ≤ f.getD k 0
    · rw [if_pos hc]
      have ht : t < f.getD k 0 / p.getD k 0 := (econd_iff hp).mp hc
      rw [min_eq_left (by omega), min_eq_left (by omega)]
      ring
    · rw [if_neg hc]
      have ht : ¬ t < f.getD k 0 / p.getD k 0 :=
        fun hcon => hc ((econd_iff hp).mpr hcon)
      rw [min_eq_right (by omega), min_eq_right (by omega), Nat.add_zero]
  · have hp0 : p.getD k 0 = 0 := by omega
    rw [hp0]
    simp

theorem distMid_sum_le (p f : List Nat) (n t : Nat) (hfl : f.length = n) :
    (distMid p f n t 0).sum ≤ f.sum := by
  conv_rhs => rw [list_eq_range_map_getD f 0, hfl]
  simp only [distMid]
  apply List.sum_le_sum
  intro k hk
  dsimp only
  rw [if_neg (by omega : ¬ k < 0)]
  calc p.getD k 0 * min t (f.getD k 0 / p.getD k 0)
      ≤ p.getD k 0 * (f.getD k 0 / p.getD k 0) :=
        Nat.mul_le_mul_left _ (min_le_right _ _)
    _ ≤ f.getD k 0 := by
        have h2 := Nat.div_mul_le_self (f.getD k 0) (p.getD k 0)
        rw [Nat.mul_comm]
        exact h2

theorem eCounts_zero_of_le {p f : List Nat} {n t : Nat}
    (h : maxRounds p f n ≤ t) {k : Nat} (hk : k < n) :
    (eCounts p f n t).getD k 0 = 0 := by
  rw [eCounts_getD p f n t k hk]
  by_cases hp : 0 < p.getD k 0
  · rw [if_neg]
    intro hcon
    have h1 := (econd_iff hp).mp hcon
    have h2 := maxRounds_ge (p := p) (f := f) hk
    omega
  · have hp0 : p.getD k 0 = 0 := by omega
    rw [hp0]
    simp

theorem roundSum_pos {p f : List Nat} {n t : Nat} (h : t < maxRounds p f n) :
    0 < ((List.range' 0 n).map fun k => (eCounts p f n t).getD k 0).sum := by
  obtain ⟨k, hk, hlt⟩ := lt_maxRounds h
  have hp : 0 < p.getD k 0 := by
    by_contra hp0
    have hz : p.getD k 0 = 0 := by omega
    rw [hz, Nat.div_zero] at hlt
    omega
  have hek : (eCounts p f n t).getD k 0 = p.getD k 0 := by
    rw [eCounts_getD p f n t k hk, if_pos ((econd_iff hp).mpr hlt)]
  have hmem : k ∈ List.range' 0 n := by
    rw [← List.range_eq_range']
    exact List.mem_range.mpr hk
  have hle := List.single_le_sum (fun x _ => Nat.zero_le x) _
    (List.mem_map_of_mem (fun k => (eCounts p f n t).getD k 0) hmem)
  have hle2 : (eCounts p f n t).getD k 0
      ≤ ((List.range' 0 n).map fun k => (eCounts p f n t).getD k 0).sum := hle
  omega

theorem roundSum_zero {p f : List Nat} {n t : Nat} (h : maxRounds p f n ≤ t) :
    ((List.range' 0 n).map fun k => (eCounts p f n t).getD k 0).sum = 0 := by
  apply List.sum_eq_zero
  intro x hx
  obtain ⟨k, hk, hfx⟩ := List.mem_map.mp hx
  subst hfx
  have hkn : k < n := by
    rw [← List.range_eq_range'] at hk
    exact List.mem_range.mp hk
  exact eCounts_zero_of_le h hkn

/-- The `while True` loop of `_assign_gcd_interleaved`, started at round `t`
with the corresponding distributed state, terminates after the remaining
`maxRounds - t` pattern rounds and returns exactly the round-iterated
contiguous emission. -/
theorem giLoop_spec {α : Type} (data : List α) (p f : List Nat) (n : Nat)
    (hfl : f.length = n) (hfs : f.sum ≤ data.length) :
    ∀ (fuel t : Nat) (res : List (List α)),
      res.length = n →
      t ≤ maxRounds p f n →
      maxRounds p f n - t < fuel →
      giLoop data p f n fuel
          ⟨res, distMid p f n t 0, (distMid p f n t 0).sum⟩
        = some ⟨(iterateRounds data p f n t (maxRounds p f n - t)
                  ((distMid p f n t 0).sum) res).1,
                distMid p f n (maxRounds p f n) 0,
                (iterateRounds data p f n t (maxRounds p f n - t)
                  ((distMid p f n t 0).sum) res).2⟩
  | 0, t, res, hres, hle, hfuel => by omega
  | fuel + 1, t, res, hres, hle, hfuel => by
    rw [giLoop_succ, List.range_eq_range']
    have hidxb : (distMid p f n t 0).sum
        + ((List.range' 0 n).map fun k => (eCounts p f n t).getD k 0).sum
        ≤ data.length := by
      rw [distMid_sum_roll]
      exact le_trans (distMid_sum_le p f n (t + 1) hfl) hfs
    rw [giSweep_spec data p f n t n 0 res ((distMid p f n t 0).sum) false
      (by omega) hres hidxb]
    by_cases ht : t < maxRounds p f n
    · have hfidx : (fillByCounts data (eCounts p f n t) (List.range' 0 n)
          ((distMid p f n t 0).sum) res).2 = (distMid p f n (t + 1) 0).sum := by
        rw [fillByCounts_idx]
        exact distMid_sum_roll p f n t
      have hflag : (false || decide
          (0 < ((List.range' 0 n).map
            fun k => (eCounts p f n t).getD k 0).sum)) = true := by
        rw [Bool.false_or]
        exact decide_eq_true (roundSum_pos ht)
      rw [show ((⟨(fillByCounts data (eCounts p f n t) (List.range' 0 n)
            ((distMid p f n t 0).sum) res).1, distMid p f n t n,
            (fillByCounts data (eCounts p f n t) (List.range' 0 n)
              ((distMid p f n t 0).sum) res).2⟩ : GIState α),
          false || decide
            (0 < ((List.range' 0 n).map
              fun k => (eCounts p f n t).getD k 0).sum)).2 = true
        from hflag]
      rw [if_pos rfl]
      show giLoop data p f n fuel
          ⟨(fillByCounts data (eCounts p f n t) (List.range' 0 n)
              ((distMid p f n t 0).sum) res).1, distMid p f n t n,
            (fillByCounts data (eCounts p f n t) (List.range' 0 n)
              ((distMid p f n t 0).sum) res).2⟩ = _
      rw [distMid_roll, hfidx]
      rw [giLoop_spec data p f n hfl hfs fuel (t + 1)
        (fillByCounts data (eCounts p f n t) (List.range' 0 n)
          ((distMid p f n t 0).sum) res).1
        (by rw [fillByCounts_length]; exact hres) (by omega) (by omega)]
      rw [show maxRounds p f n - t = (maxRounds p f n - (t + 1)) + 1 by omega,
        iterateRounds_succ, List.range_eq_range', hfidx]
    · have ht2 : t = maxRounds p f n := by omega
      have hzero : ∀ k ∈ List.range' 0 n,
          (eCounts p f n t).getD k 0 = 0 ∧ k < res.length := by
        intro k hk
        have hkn : k < n := by
          rw [← List.range_eq_range'] at hk
          exact List.mem_range.mp hk
        exact ⟨eCounts_zero_of_le (by omega) hkn, by omega⟩
      have hflag : (false || decide
          (0 < ((List.range' 0 n).map
            fun k => (eCounts p f n t).getD k 0).sum)) = false := by
        rw [Bool.false_or]
        apply decide_eq_false
        rw [roundSum_zero (by omega)]
        omega
      rw [show ((⟨(fillByCounts data (eCounts p f n t) (List.range' 0 n)
            ((distMid p f n t 0).sum) res).1, distMid p f n t n,
            (fillByCounts data (eCounts p f n t) (List.range' 0 n)
              ((distMid p f n t 0).sum) res).2⟩ : GIState α),
          false || decide
            (0 < ((List.range' 0 n).map
              fun k => (eCounts p f n t).getD k 0).sum)).2 = false
        from hflag]
      rw [if_neg Bool.false_ne_true]
      rw [fillByCounts_zero data (eCounts p f n t) (List.range' 0 n)
        ((distMid p f n t 0).sum) res hzero]
      rw [show maxRounds p f n - t = 0 by omega, iterateRounds_zero]
      rw [distMid_roll, ht2]
      rw [distMid_stable p f n (maxRounds p f n)
        (fun k hk => maxRounds_ge hk)]

/-- Claim C3 (amended): for every input list and every weight map with
positive total weight, gcd_interleaved follows a two-phase contract with a
per-group round rule: each group emits full pattern rounds while the whole
pattern still fits its own remaining quota (groups are skipped one by one
once it does not, rounds continuing as long as some group still emits), and
the remaining unfilled slots are then assigned contiguously to the groups'
remaining deficits in WeightSet order. -/
theorem gcd_interleaved_realises_two_phase {α : Type} (ws : List Nat)
    (data : List α) (hs : 0 < ws.sum) :
    assign_gcd_interleaved ws data = PyResult.ok (specGcdTwoPhase ws data) := by
  have hg0 : 0 < gcd_list ws := gcd_list_pos ws hs
  have hg : ¬ gcd_list ws = 0 := by omega
  have hflen : (largest_remainder_method data.length ws).length = ws.length :=
    lrm_length data.length ws
  have hfs : (largest_remainder_method data.length ws).sum ≤ data.length :=
    le_of_eq (lrm_sum data.length ws hs)
  have hfb : maxRounds (ws.map fun w => w / gcd_list ws)
      (largest_remainder_method data.length ws) ws.length ≤ data.length := by
    apply maxRounds_le
    intro k hk
    have h1 : (largest_remainder_method data.length ws).getD k 0
        ≤ (largest_remainder_method data.length ws).sum := by
      have hkf : k < (largest_remainder_method data.length ws).length := by
        omega
      rw [List.getD_eq_getElem _ 0 hkf]
      exact List.single_le_sum (fun x _ => Nat.zero_le x) _
        (List.getElem_mem _)
    have h2 := Nat.div_le_self
      ((largest_remainder_method data.length ws).getD k 0)
      ((ws.map fun w => w / gcd_list ws).getD k 0)
    exact le_trans h2 (le_trans h1 hfs)
  have hloop := giLoop_spec data (ws.map fun w => w / gcd_list ws)
    (largest_remainder_method data.length ws) ws.length hflen hfs
    (data.length + 1) 0 (ws.map fun _ => []) (by simp) (Nat.zero_le _)
    (by omega)
  rw [← distMid_init ws (ws.map fun w => w / gcd_list ws)
    (largest_remainder_method data.length ws)] at hloop
  rw [show (ws.map fun _ => (0 : Nat)).sum = 0 from by simp] at hloop
  rw [Nat.sub_zero] at hloop
  have hitlen : (iterateRounds data (ws.map fun w => w / gcd_list ws)
      (largest_remainder_method data.length ws) ws.length 0
      (maxRounds (ws.map fun w => w / gcd_list ws)
        (largest_remainder_method data.length ws) ws.length) 0
      (ws.map fun _ => [])).1.length = ws.length := by
    rw [iterateRounds_length]
    simp
  have hlcs : (List.range ws.length).map
      (fun k => (largest_remainder_method data.length ws).getD k 0
        - (distMid (ws.map fun w => w / gcd_list ws)
            (largest_remainder_method data.length ws) ws.length
            (maxRounds (ws.map fun w => w / gcd_list ws)
              (largest_remainder_method data.length ws) ws.length) 0).getD k 0)
      = (List.range ws.length).map
      (fun k => (largest_remainder_method data.length ws).getD k 0
        - (ws.map fun w => w / gcd_list ws).getD k 0
          * ((largest_remainder_method data.length ws).getD k 0
              / (ws.map fun w => w / gcd_list ws).getD k 0)) := by
    apply map_range_congr
    intro k hk
    rw [distMid_getD _ _ _ _ _ k hk, if_neg (by omega : ¬ k < 0),
      min_eq_right (maxRounds_ge hk)]
  unfold assign_gcd_interleaved
  rw [if_neg hg, hloop]
  dsimp only
  unfold specGcdTwoPhase specPhase1 specDeficits specPattern
  by_cases hemp : (data.drop (iterateRounds data
      (ws.map fun w => w / gcd_list ws)
      (largest_remainder_method data.length ws) ws.length 0
      (maxRounds (ws.map fun w => w / gcd_list ws)
        (largest_remainder_method data.length ws) ws.length) 0
      (ws.map fun _ => [])).2).isEmpty
  · rw [if_pos hemp]
    have hnil : data.drop (iterateRounds data
        (ws.map fun w => w / gcd_list ws)
        (largest_remainder_method data.length ws) ws.length 0
        (maxRounds (ws.map fun w => w / gcd_list ws)
          (largest_remainder_method data.length ws) ws.length) 0
        (ws.map fun _ => [])).2 = [] := List.isEmpty_iff.mp hemp
    rw [hnil, fillByCounts_nil_left _ _ _ _
      (fun k hk => by rw [hitlen]; exact List.mem_range.mp hk)]
  · rw [if_neg hemp]
    rw [giFill_eq_fillByCounts _ _ _ _ _
      (fun k hk => by rw [hitlen]; exact List.mem_range.mp hk)]
    rw [hlcs]

/-- Claim C3, counterexample: at weights `[3, 2]` over the data `0..8` the
code's per-group rule lets group 1 emit a second pattern round after group 0
has stopped (yielding `[[0,1,2,7,8], [3,4,5,6]]`), while the claimed global
stop would end round emission entirely at the first overflowing round and
yield `[[0,1,2,5,6], [3,4,7,8]]`. -/
theorem gcd_global_stop_cex :
    assign_gcd_interleaved [3, 2] (List.range 9)
      = PyResult.ok [[0, 1, 2, 7, 8], [3, 4, 5, 6]]
    ∧ specGcdGlobalStop [3, 2] (List.range 9)
      = [[0, 1, 2, 5, 6], [3, 4, 7, 8]]
    ∧ PyResult.ok ([[0, 1, 2, 7, 8], [3, 4, 5, 6]] : List (List Nat))
      ≠ PyResult.ok ([[0, 1, 2, 5, 6], [3, 4, 7, 8]] : List (List Nat)) := by
  decide

/-- Claim C3, witness for the amended statement at weights `[3, 2]` and data
`0..8`. -/
theorem gcd_two_phase_witness :
    0 < ([3, 2] : List Nat).sum
    ∧ assign_gcd_interleaved [3, 2] (List.range 9)
        = PyResult.ok (specGcdTwoPhase [3, 2] (List.range 9)) :=
  ⟨by decide, gcd_interleaved_realises_two_phase [3, 2] (List.range 9)
    (by decide)⟩
